import Mathlib

/-!
Verification of the CFG construction and optimization core
(`src/cfg/builder/builder_finalize.cc`).

The C++ graph of `BasicBlock*` pointers is embedded as an arena: blocks are
records carrying a numeric `id`, and every cross-reference (`bexit.thenb`,
`bexit.elseb`, `backEdges` entries, topo-sort entries) is an id.  This is the
id-arena representation the design notes of the repository themselves
recommend; pointer equality in the C++ corresponds to id equality here.
Unbounded `while` loops of the C++ are embedded as fuel-indexed step
functions returning `Option` (`none` = the fuel ran out before the loop
exited), so divergence of the source loop is expressible as
`∀ fuel, run fuel x = none`.
-/

/-- `core::LocalVariable`: a name id (`name._id`), a disambiguating unique,
and the two predicates the core consults (`isSyntheticTemporary`,
`isAliasForGlobal`). -/
structure LocalVariable where
  nameId : Nat
  uniq : Nat
  synthetic : Bool
  aliasGlobal : Bool
deriving DecidableEq, Repr

/-- The reserved name id of the `core::Names::blockCall()` sentinel consulted
by simplify rule R3b. -/
def blockCallNameId : Nat := 1

/-- `cfg::Instruction`: closed sum of the instruction variants the core
distinguishes.  Literal payloads are opaque numerals. -/
inductive Instruction where
  | ident (what : LocalVariable)
  | send (recv : LocalVariable) (name : Nat) (args : List LocalVariable)
  | ret (what : LocalVariable)
  | arraySplat (what : LocalVariable)
  | hashSplat (what : LocalVariable)
  | boolLit (b : Bool)
  | stringLit (s : Nat)
  | symbolLit (s : Nat)
  | intLit (i : Int)
  | floatLit (f : Nat)
  | self
  | loadArg (i : Nat)
  | newObject (cls : Nat)
deriving DecidableEq, Repr

/-- `cfg::Binding`: one three-address binding `bind = value`. -/
structure Binding where
  bind : LocalVariable
  value : Instruction
deriving DecidableEq, Repr

/-- `cfg::BlockExit`: the two-way terminator.  The C++ `cond` is a
`LocalVariable` that may be the does-not-exist sentinel; we embed it as an
`Option` (`none` = `!cond.exists()`, whose name is not `blockCall`). -/
structure BExit where
  cond : Option LocalVariable
  thenb : Nat
  elseb : Nat
deriving DecidableEq, Repr

/-- `thenb->bexit.cond.name != core::Names::blockCall()` test of R3b. -/
def condIsBlockCall (c : Option LocalVariable) : Bool :=
  match c with
  | some v => v.nameId == blockCallNameId
  | none => false

/-- `cfg::BasicBlock` in arena form: edges are block ids.  `flags` is the
bit-set (LOOP_HEADER and the two topo-sort visited bits). -/
structure BasicBlock where
  id : Nat
  exprs : List Binding
  bexit : BExit
  backEdges : List Nat
  outerLoops : Nat
  args : List LocalVariable
  flags : Nat
deriving DecidableEq, Repr

/-- `cfg::CFG`: the owning block list (list order is the iteration order of
`cfg.basicBlocks`), the distinguished entry and dead blocks (by id), the two
topo-sort arrays (as id lists), and the two per-variable loop-depth maps. -/
structure CFG where
  basicBlocks : List BasicBlock
  entryId : Nat
  deadId : Nat
  forwardsTopoSort : List Nat
  backwardsTopoSort : List Nat
  minLoops : List (LocalVariable × Int)
  maxLoopWrite : List (LocalVariable × Int)
deriving DecidableEq, Repr

/-- Dereference a block id in the arena (first block carrying that id). -/
def getBlock (cfg : CFG) (i : Nat) : Option BasicBlock :=
  cfg.basicBlocks.find? (fun b => b.id == i)

/-- Replace the first block carrying id `i` by `f` of it (mutation through a
`BasicBlock*` in the C++). -/
def updateBlocksFirst (l : List BasicBlock) (i : Nat) (f : BasicBlock → BasicBlock) :
    List BasicBlock :=
  match l with
  | [] => []
  | b :: rest =>
      if b.id == i then f b :: rest else b :: updateBlocksFirst rest i f

/-- Arena-level block mutation. -/
def updateBlock (cfg : CFG) (i : Nat) (f : BasicBlock → BasicBlock) : CFG :=
  { cfg with basicBlocks := updateBlocksFirst cfg.basicBlocks i f }

/-- `v.erase(std::remove(v.begin(), v.end(), b), v.end())` on a back-edge
list: drop every occurrence of `p`. -/
def scrubBackEdge (cfg : CFG) (blockId p : Nat) : CFG :=
  updateBlock cfg blockId (fun b => { b with backEdges := b.backEdges.filter (fun q => q ≠ p) })

/-- `push_back` on a back-edge list. -/
def pushBackEdge (cfg : CFG) (blockId p : Nat) : CFG :=
  updateBlock cfg blockId (fun b => { b with backEdges := b.backEdges ++ [p] })

/-- Ordered insertion into an ascending id list. -/
def insertAsc (x : Nat) : List Nat → List Nat
  | [] => [x]
  | y :: ys => if x ≤ y then x :: y :: ys else y :: insertAsc x ys

/-- Insertion sort of an id list, ascending. -/
def sortAsc : List Nat → List Nat
  | [] => []
  | x :: xs => insertAsc x (sortAsc xs)

/-- `std::unique`: drop consecutive duplicates. -/
def dedupAdj : List Nat → List Nat
  | [] => []
  | [x] => [x]
  | x :: y :: ys => if x = y then dedupAdj (y :: ys) else x :: dedupAdj (y :: ys)

/-- `sort` by id then `unique`: sort the back-edge id list ascending and
deduplicate (rule R2's canonicalization). -/
def sortDedupEdges (l : List Nat) : List Nat :=
  dedupAdj (sortAsc l)

/-- Tags naming which simplify rewrite fired, following §4.1 of the spec:
R1 unreachable prune, R3a merge-into, R3b exit adoption, R4 then-shortcut,
R5 else-shortcut.  (R2, the back-edge canonicalization, does not `continue`
in the source: it falls through to the R3–R5 tests, so it is folded into the
step rather than tagged.) -/
inductive SimpRule where
  | r1
  | r3a
  | r3b
  | r4
  | r5
deriving DecidableEq, Repr

/-- Rule R1 at block `bb` (known to have empty `backEdges`): scrub `bb` from
its successors' back-edges, erase it from the owning list (positionally, as
the `std::list` iterator does) and from both topo-sort arrays. -/
def applyR1 (cfg : CFG) (pos : Nat) (bb : BasicBlock) : CFG :=
  let thenId := bb.bexit.thenb
  let elseId := bb.bexit.elseb
  let cfg1 := scrubBackEdge cfg thenId bb.id
  let cfg2 := if elseId ≠ thenId then scrubBackEdge cfg1 elseId bb.id else cfg1
  { cfg2 with
    basicBlocks := cfg2.basicBlocks.eraseIdx pos
    forwardsTopoSort := cfg2.forwardsTopoSort.filter (fun q => q ≠ bb.id)
    backwardsTopoSort := cfg2.backwardsTopoSort.filter (fun q => q ≠ bb.id) }

/-- Rule R3a: `bb`'s unique unconditional successor `s` is absorbed:
`bb.exprs += s.exprs`, `s.backEdges.clear()`, `bb.bexit = s.bexit`, and `bb`
is pushed on the new successors' back-edges (once if they coincide).
`s.exprs` is left in place, as the C++ move does not shrink the source
vector. -/
def applyR3a (cfg : CFG) (bbId : Nat) (s : BasicBlock) : CFG :=
  let cfg1 := updateBlock cfg bbId (fun b => { b with exprs := b.exprs ++ s.exprs })
  let cfg2 := updateBlock cfg1 s.id (fun b => { b with backEdges := [] })
  let cfg3 := updateBlock cfg2 bbId (fun b => { b with bexit := s.bexit })
  let cfg4 := pushBackEdge cfg3 s.bexit.thenb bbId
  if s.bexit.thenb ≠ s.bexit.elseb then pushBackEdge cfg4 s.bexit.elseb bbId else cfg4

/-- Rule R3b: adopt the exit of the empty non-header successor `s`:
`bb.bexit = s.bexit`, remove `bb` from `s.backEdges`, push `bb` on the new
successors' back-edges. -/
def applyR3b (cfg : CFG) (bbId : Nat) (s : BasicBlock) : CFG :=
  let cfg1 := updateBlock cfg bbId (fun b => { b with bexit := s.bexit })
  let cfg2 := scrubBackEdge cfg1 s.id bbId
  let cfg3 := pushBackEdge cfg2 s.bexit.thenb bbId
  if s.bexit.thenb ≠ s.bexit.elseb then pushBackEdge cfg3 s.bexit.elseb bbId else cfg3

/-- Rule R4 (then shortcut): retarget `bb.bexit.thenb` through the empty
pass-through `s` to `t = s.bexit.thenb`, push `bb` on `t.backEdges`, remove
`bb` from `s.backEdges`. -/
def applyR4 (cfg : CFG) (bbId : Nat) (s : BasicBlock) : CFG :=
  let t := s.bexit.thenb
  let cfg1 := updateBlock cfg bbId (fun b => { b with bexit := { b.bexit with thenb := t } })
  let cfg2 := pushBackEdge cfg1 t bbId
  scrubBackEdge cfg2 s.id bbId

/-- Rule R5 (else shortcut), symmetric to R4. -/
def applyR5 (cfg : CFG) (bbId : Nat) (s : BasicBlock) : CFG :=
  let t := s.bexit.elseb
  let cfg1 := updateBlock cfg bbId (fun b => { b with bexit := { b.bexit with elseb := t } })
  let cfg2 := pushBackEdge cfg1 t bbId
  scrubBackEdge cfg2 s.id bbId

/-- The R3–R5 test chain of `CFGBuilder::simplify`, run after the R1/R2
prelude on the (possibly R2-canonicalized) graph `cfg`.  `thenId`/`elseId`
are the locals captured at the top of the loop body; `bb` is re-read through
the arena.  Returns the rule that fired and the mutated graph, or `none` if
none fired (`++it`). -/
def tryRules345 (cfg : CFG) (bbId thenId elseId : Nat) : Option (SimpRule × CFG) :=
  let r3 : Option (SimpRule × CFG) :=
    if thenId = elseId ∧ thenId ≠ cfg.deadId ∧ thenId ≠ bbId then
      match getBlock cfg thenId with
      | some s =>
          if s.backEdges.length = 1 then some (.r3a, applyR3a cfg bbId s)
          else if ¬ condIsBlockCall s.bexit.cond ∧ s.exprs = [] then
            some (.r3b, applyR3b cfg bbId s)
          else none
      | none => none
    else none
  match r3 with
  | some res => some res
  | none =>
    let r4 : Option (SimpRule × CFG) :=
      match getBlock cfg thenId with
      | some s =>
          if thenId ≠ cfg.deadId ∧ s.exprs = [] ∧ s.bexit.thenb = s.bexit.elseb ∧
              thenId ≠ s.bexit.thenb then
            some (.r4, applyR4 cfg bbId s)
          else none
      | none => none
    match r4 with
    | some res => some res
    | none =>
      match getBlock cfg elseId with
      | some s =>
          if elseId ≠ cfg.deadId ∧ s.exprs = [] ∧ s.bexit.thenb = s.bexit.elseb ∧
              elseId ≠ s.bexit.elseb then
            some (.r5, applyR5 cfg bbId s)
          else none
      | none => none

/-- One iteration of the inner `for` loop of `CFGBuilder::simplify` at
position `pos` of the block list.  Result:
`none` — `pos` is past the end (the pass over the list is finished);
`some (some rule, cfg', pos')` — a rewrite fired (`changed = true`,
`continue`, so `pos' = pos`);
`some (none, cfg', pos')` — no rewrite fired, `pos' = pos + 1` (`cfg'` may
still differ from `cfg` by the R2 canonicalization, which sets no flag). -/
def passStep (cfg : CFG) (pos : Nat) : Option (Option SimpRule × CFG × Nat) :=
  match cfg.basicBlocks[pos]? with
  | none => none
  | some bb =>
    let thenId := bb.bexit.thenb
    let elseId := bb.bexit.elseb
    if bb.id ≠ cfg.deadId ∧ bb.id ≠ cfg.entryId then
      if bb.backEdges = [] then
        some (some .r1, applyR1 cfg pos bb, pos)
      else
        let cfg1 := updateBlock cfg bb.id (fun b => { b with backEdges := sortDedupEdges b.backEdges })
        match tryRules345 cfg1 bb.id thenId elseId with
        | some (r, cfg2) => some (some r, cfg2, pos)
        | none => some (none, cfg1, pos + 1)
    else
      match tryRules345 cfg bb.id thenId elseId with
      | some (r, cfg2) => some (some r, cfg2, pos)
      | none => some (none, cfg, pos + 1)

/-- The fuelled `while (changed)` driver of `CFGBuilder::simplify`:
each call to `passStep` consumes one unit of fuel; when a pass finishes with
`changed = true` the walk restarts at the head of the block list.
`none` = the fuel was exhausted before the fixpoint was reached. -/
def runSimp : Nat → CFG → Nat → Bool → Option CFG
  | 0, _, _, _ => none
  | fuel + 1, cfg, pos, changed =>
    match passStep cfg pos with
    | none => if changed then runSimp fuel cfg 0 false else some cfg
    | some (some _, cfg', pos') => runSimp fuel cfg' pos' true
    | some (none, cfg', pos') => runSimp fuel cfg' pos' changed

/-- `CFGBuilder::simplify` with the given fuel. -/
def simplifyFuel (fuel : Nat) (cfg : CFG) : Option CFG :=
  runSimp fuel cfg 0 false

/-- Direction 1 of back-edge consistency for one block: every recorded
predecessor's exit targets this block (`parent is not aware of a child`
check of `sanityCheck`). -/
def parentsPointHere (cfg : CFG) (b : BasicBlock) : Bool :=
  b.backEdges.all (fun p =>
    match getBlock cfg p with
    | some pb => pb.bexit.thenb == b.id || pb.bexit.elseb == b.id
    | none => false)

/-- Direction 2 for one block other than deadBlock: the block is recorded in
both successors' back-edges (`backedge unset for thenb/elseb` checks). -/
def childKnown (cfg : CFG) (b : BasicBlock) : Bool :=
  if b.id == cfg.deadId then true
  else
    (match getBlock cfg b.bexit.thenb with
     | some tb => b.id ∈ tb.backEdges
     | none => false) &&
    (match getBlock cfg b.bexit.elseb with
     | some eb => b.id ∈ eb.backEdges
     | none => false)

/-- The structural invariant enforced by `CFGBuilder::sanityCheck`:
back-edge consistency in both directions for every block. -/
def backEdgeConsistent (cfg : CFG) : Bool :=
  cfg.basicBlocks.all (fun b => parentsPointHere cfg b && childKnown cfg b)

/-! ### Generic facts about the arena operations -/

/-- The multiset of block ids, in list order. -/
def idsOf (cfg : CFG) : List Nat := cfg.basicBlocks.map (fun b => b.id)

/-- Decidable presence of a block with the given id. -/
def hasBlockId (cfg : CFG) (i : Nat) : Bool :=
  cfg.basicBlocks.any (fun b => b.id == i)

theorem updateBlocksFirst_map_id (l : List BasicBlock) (i : Nat)
    (f : BasicBlock → BasicBlock) (hf : ∀ b, (f b).id = b.id) :
    (updateBlocksFirst l i f).map (fun b => b.id) = l.map (fun b => b.id) := by
  induction l with
  | nil => rfl
  | cons b rest ih =>
      by_cases hb : b.id == i
      · simp [updateBlocksFirst, hb, hf]
      · simp [updateBlocksFirst, hb, ih]

theorem idsOf_updateBlock (cfg : CFG) (i : Nat) (f : BasicBlock → BasicBlock)
    (hf : ∀ b, (f b).id = b.id) : idsOf (updateBlock cfg i f) = idsOf cfg :=
  updateBlocksFirst_map_id cfg.basicBlocks i f hf

theorem entry_updateBlock (cfg : CFG) (i : Nat) (f : BasicBlock → BasicBlock) :
    (updateBlock cfg i f).entryId = cfg.entryId := rfl

theorem list_any_id_map (l : List BasicBlock) (i : Nat) :
    (l.any fun b => b.id == i) = ((l.map (fun b => b.id)).any fun x => x == i) := by
  induction l with
  | nil => rfl
  | cons b rest ih => simp [ih]

theorem hasBlockId_eq_ids (cfg : CFG) (i : Nat) :
    hasBlockId cfg i = (idsOf cfg).any (fun x => x == i) :=
  list_any_id_map cfg.basicBlocks i

theorem map_eraseIdx (l : List BasicBlock) (n : Nat) :
    (l.eraseIdx n).map (fun b => b.id) = (l.map (fun b => b.id)).eraseIdx n := by
  induction l generalizing n with
  | nil => rfl
  | cons b rest ih =>
      cases n with
      | zero => rfl
      | succ m => simp [List.eraseIdx, ih]

theorem any_eraseIdx_of_ne (l : List Nat) (n : Nat) (i : Nat)
    (h : l.any (fun x => x == i) = true)
    (hne : ∀ x, l[n]? = some x → x ≠ i) :
    (l.eraseIdx n).any (fun x => x == i) = true := by
  induction l generalizing n with
  | nil => simp at h
  | cons b rest ih =>
      cases n with
      | zero =>
          have hb : b ≠ i := hne b (by simp)
          simp only [List.any_cons, Bool.or_eq_true] at h
          rcases h with h | h
          · exact absurd (by simpa using h) hb
          · simpa [List.eraseIdx] using h
      | succ m =>
          simp only [List.any_cons, Bool.or_eq_true] at h
          rcases h with h | h
          · simp [List.eraseIdx, h]
          · have := ih m h (fun x hx => hne x (by simpa using hx))
            simp [List.eraseIdx, this, Bool.or_eq_true]

theorem idsOf_pushBackEdge (cfg : CFG) (i p : Nat) :
    idsOf (pushBackEdge cfg i p) = idsOf cfg :=
  idsOf_updateBlock cfg i _ (fun _ => rfl)

theorem idsOf_scrubBackEdge (cfg : CFG) (i p : Nat) :
    idsOf (scrubBackEdge cfg i p) = idsOf cfg :=
  idsOf_updateBlock cfg i _ (fun _ => rfl)

/-- The graph skeleton data that no simplify rewrite may corrupt: the block
id multiset is unchanged and the entry/dead designations are unchanged. -/
def SameSkeleton (cfg cfg' : CFG) : Prop :=
  idsOf cfg' = idsOf cfg ∧ cfg'.entryId = cfg.entryId ∧ cfg'.deadId = cfg.deadId

theorem sameSkeleton_refl (cfg : CFG) : SameSkeleton cfg cfg := ⟨rfl, rfl, rfl⟩

theorem sameSkeleton_trans {a b c : CFG} (h1 : SameSkeleton a b) (h2 : SameSkeleton b c) :
    SameSkeleton a c :=
  ⟨h2.1.trans h1.1, h2.2.1.trans h1.2.1, h2.2.2.trans h1.2.2⟩

theorem sameSkeleton_updateBlock (cfg : CFG) (i : Nat) (f : BasicBlock → BasicBlock)
    (hf : ∀ b, (f b).id = b.id) : SameSkeleton cfg (updateBlock cfg i f) :=
  ⟨idsOf_updateBlock cfg i f hf, rfl, rfl⟩

theorem sameSkeleton_push (cfg : CFG) (i p : Nat) : SameSkeleton cfg (pushBackEdge cfg i p) :=
  sameSkeleton_updateBlock cfg i _ (fun _ => rfl)

theorem sameSkeleton_scrub (cfg : CFG) (i p : Nat) : SameSkeleton cfg (scrubBackEdge cfg i p) :=
  sameSkeleton_updateBlock cfg i _ (fun _ => rfl)

theorem idsOf_applyR3a (cfg : CFG) (bbId : Nat) (s : BasicBlock) :
    idsOf (applyR3a cfg bbId s) = idsOf cfg := by
  simp only [applyR3a]
  split <;>
  · simp only [idsOf_pushBackEdge]
    refine (idsOf_updateBlock _ _ _ ?_).trans
      ((idsOf_updateBlock _ _ _ ?_).trans (idsOf_updateBlock _ _ _ ?_)) <;> (intro b; rfl)

theorem sameSkeleton_applyR3a (cfg : CFG) (bbId : Nat) (s : BasicBlock) :
    SameSkeleton cfg (applyR3a cfg bbId s) := by
  refine ⟨idsOf_applyR3a cfg bbId s, ?_, ?_⟩ <;> (simp only [applyR3a]; split <;> rfl)

theorem idsOf_applyR3b (cfg : CFG) (bbId : Nat) (s : BasicBlock) :
    idsOf (applyR3b cfg bbId s) = idsOf cfg := by
  simp only [applyR3b]
  split <;>
  · simp only [idsOf_pushBackEdge, idsOf_scrubBackEdge]
    refine idsOf_updateBlock _ _ _ ?_
    intro b; rfl

theorem sameSkeleton_applyR3b (cfg : CFG) (bbId : Nat) (s : BasicBlock) :
    SameSkeleton cfg (applyR3b cfg bbId s) := by
  refine ⟨idsOf_applyR3b cfg bbId s, ?_, ?_⟩ <;> (simp only [applyR3b]; split <;> rfl)

theorem idsOf_applyR4 (cfg : CFG) (bbId : Nat) (s : BasicBlock) :
    idsOf (applyR4 cfg bbId s) = idsOf cfg := by
  simp only [applyR4, idsOf_scrubBackEdge, idsOf_pushBackEdge]
  refine idsOf_updateBlock _ _ _ ?_
  intro b; rfl

theorem sameSkeleton_applyR4 (cfg : CFG) (bbId : Nat) (s : BasicBlock) :
    SameSkeleton cfg (applyR4 cfg bbId s) :=
  ⟨idsOf_applyR4 cfg bbId s, rfl, rfl⟩

theorem idsOf_applyR5 (cfg : CFG) (bbId : Nat) (s : BasicBlock) :
    idsOf (applyR5 cfg bbId s) = idsOf cfg := by
  simp only [applyR5, idsOf_scrubBackEdge, idsOf_pushBackEdge]
  refine idsOf_updateBlock _ _ _ ?_
  intro b; rfl

theorem sameSkeleton_applyR5 (cfg : CFG) (bbId : Nat) (s : BasicBlock) :
    SameSkeleton cfg (applyR5 cfg bbId s) :=
  ⟨idsOf_applyR5 cfg bbId s, rfl, rfl⟩

set_option maxHeartbeats 1000000 in
theorem sameSkeleton_tryRules345 {cfg : CFG} {bbId thenId elseId : Nat} {r : SimpRule}
    {cfg' : CFG} (h : tryRules345 cfg bbId thenId elseId = some (r, cfg')) :
    SameSkeleton cfg cfg' := by
  unfold tryRules345 at h
  repeat' split at h
  all_goals simp only [Option.some.injEq, Prod.mk.injEq] at h
  all_goals (try exact absurd h Option.noConfusion)
  all_goals obtain ⟨h1, h2⟩ := h
  all_goals subst h2
  all_goals
    first
    | exact sameSkeleton_applyR3a _ _ _
    | exact sameSkeleton_applyR3b _ _ _
    | exact sameSkeleton_applyR4 _ _ _
    | exact sameSkeleton_applyR5 _ _ _

theorem hasBlockId_of_sameSkeleton {cfg cfg' : CFG} (h : SameSkeleton cfg cfg') (i : Nat) :
    hasBlockId cfg' i = hasBlockId cfg i := by
  rw [hasBlockId_eq_ids, hasBlockId_eq_ids, h.1]

theorem idsOf_applyR1 (cfg : CFG) (pos : Nat) (bb : BasicBlock) :
    idsOf (applyR1 cfg pos bb) = (idsOf cfg).eraseIdx pos := by
  have h2 : ∀ (c : CFG) (f b : List Nat),
      idsOf { c with basicBlocks := c.basicBlocks.eraseIdx pos,
                     forwardsTopoSort := f, backwardsTopoSort := b }
        = (idsOf c).eraseIdx pos := fun c _ _ => map_eraseIdx c.basicBlocks pos
  simp only [applyR1]
  split
  · rw [h2, idsOf_scrubBackEdge, idsOf_scrubBackEdge]
  · rw [h2, idsOf_scrubBackEdge]

theorem entry_applyR1 (cfg : CFG) (pos : Nat) (bb : BasicBlock) :
    (applyR1 cfg pos bb).entryId = cfg.entryId := by
  simp only [applyR1]
  split <;> rfl

theorem dead_applyR1 (cfg : CFG) (pos : Nat) (bb : BasicBlock) :
    (applyR1 cfg pos bb).deadId = cfg.deadId := by
  simp only [applyR1]
  split <;> rfl

theorem hasBlockId_applyR1 {cfg : CFG} {pos : Nat} {bb : BasicBlock}
    (hbb : cfg.basicBlocks[pos]? = some bb) (i : Nat) (hne : bb.id ≠ i)
    (hi : hasBlockId cfg i = true) : hasBlockId (applyR1 cfg pos bb) i = true := by
  rw [hasBlockId_eq_ids, idsOf_applyR1]
  rw [hasBlockId_eq_ids] at hi
  refine any_eraseIdx_of_ne _ pos i hi ?_
  intro x hx
  have : (idsOf cfg)[pos]? = some bb.id := by
    rw [idsOf, List.getElem?_map, hbb]
    rfl
  rw [this] at hx
  cases hx
  exact hne

/-- Every inner-loop iteration of simplify keeps the entry/dead designations
and never drops the entry or the dead block from the arena (rule R1 is
guarded by `bb != cfg.deadBlock() && bb != cfg.entry()`). -/
theorem passStep_skeleton {cfg : CFG} {pos : Nat} {tag : Option SimpRule} {cfg' : CFG}
    {pos' : Nat} (h : passStep cfg pos = some (tag, cfg', pos')) :
    cfg'.entryId = cfg.entryId ∧ cfg'.deadId = cfg.deadId ∧
    (hasBlockId cfg cfg.entryId = true → hasBlockId cfg' cfg.entryId = true) ∧
    (hasBlockId cfg cfg.deadId = true → hasBlockId cfg' cfg.deadId = true) := by
  unfold passStep at h
  split at h
  · exact absurd h Option.noConfusion
  · rename_i bb hbb
    split at h
    · rename_i hguard
      split at h
      · simp only [Option.some.injEq, Prod.mk.injEq] at h
        obtain ⟨-, h2, -⟩ := h
        subst h2
        refine ⟨entry_applyR1 _ _ _, dead_applyR1 _ _ _, ?_, ?_⟩
        · exact hasBlockId_applyR1 hbb _ hguard.2
        · exact hasBlockId_applyR1 hbb _ hguard.1
      · rename_i hne
        simp only [] at h
        split at h
        · rename_i r2 c2 hp
          simp only [Option.some.injEq, Prod.mk.injEq] at h
          obtain ⟨-, h2, -⟩ := h
          subst h2
          have sk := sameSkeleton_trans
            (sameSkeleton_updateBlock cfg bb.id
              (fun b => { b with backEdges := sortDedupEdges b.backEdges }) (fun _ => rfl))
            (sameSkeleton_tryRules345 hp)
          exact ⟨sk.2.1, sk.2.2, fun hi => (hasBlockId_of_sameSkeleton sk _).trans hi,
            fun hi => (hasBlockId_of_sameSkeleton sk _).trans hi⟩
        · simp only [Option.some.injEq, Prod.mk.injEq] at h
          obtain ⟨-, h2, -⟩ := h
          subst h2
          have sk := sameSkeleton_updateBlock cfg bb.id
            (fun b => { b with backEdges := sortDedupEdges b.backEdges }) (fun _ => rfl)
          exact ⟨sk.2.1, sk.2.2, fun hi => (hasBlockId_of_sameSkeleton sk _).trans hi,
            fun hi => (hasBlockId_of_sameSkeleton sk _).trans hi⟩
    · simp only [] at h
      split at h
      · rename_i r2 c2 hp
        simp only [Option.some.injEq, Prod.mk.injEq] at h
        obtain ⟨-, h2, -⟩ := h
        subst h2
        have sk := sameSkeleton_tryRules345 hp
        exact ⟨sk.2.1, sk.2.2, fun hi => (hasBlockId_of_sameSkeleton sk _).trans hi,
          fun hi => (hasBlockId_of_sameSkeleton sk _).trans hi⟩
      · simp only [Option.some.injEq, Prod.mk.injEq] at h
        obtain ⟨-, h2, -⟩ := h
        subst h2
        exact ⟨rfl, rfl, fun hi => hi, fun hi => hi⟩

/-- The fuelled simplify driver preserves entry/dead presence. -/
theorem runSimp_skeleton : ∀ (fuel : Nat) (cfg : CFG) (pos : Nat) (changed : Bool)
    (cfg' : CFG), runSimp fuel cfg pos changed = some cfg' →
    cfg'.entryId = cfg.entryId ∧ cfg'.deadId = cfg.deadId ∧
    (hasBlockId cfg cfg.entryId = true → hasBlockId cfg' cfg.entryId = true) ∧
    (hasBlockId cfg cfg.deadId = true → hasBlockId cfg' cfg.deadId = true) := by
  intro fuel
  induction fuel with
  | zero => intro cfg pos changed cfg' h; exact absurd h Option.noConfusion
  | succ n ih =>
      intro cfg pos changed cfg' h
      unfold runSimp at h
      split at h
      · split at h
        · exact ih cfg 0 false cfg' h
        · cases h; exact ⟨rfl, rfl, fun hi => hi, fun hi => hi⟩
      · rename_i tag cfg2 pos2 hps
        have sk := passStep_skeleton hps
        have rec := ih cfg2 pos2 true cfg' h
        refine ⟨rec.1.trans sk.1, rec.2.1.trans sk.2.1, ?_, ?_⟩
        · intro hi
          have h2 := sk.2.2.1 hi
          rw [← sk.1] at h2
          have := rec.2.2.1 h2
          rwa [sk.1] at this
        · intro hi
          have h2 := sk.2.2.2 hi
          rw [← sk.2.1] at h2
          have := rec.2.2.2 h2
          rwa [sk.2.1] at this
      · rename_i cfg2 pos2 hps
        have sk := passStep_skeleton hps
        have rec := ih cfg2 pos2 changed cfg' h
        refine ⟨rec.1.trans sk.1, rec.2.1.trans sk.2.1, ?_, ?_⟩
        · intro hi
          have h2 := sk.2.2.1 hi
          rw [← sk.1] at h2
          have := rec.2.2.1 h2
          rwa [sk.1] at this
        · intro hi
          have h2 := sk.2.2.2 hi
          rw [← sk.2.1] at h2
          have := rec.2.2.2 h2
          rwa [sk.2.1] at this

/-! ### Concrete control-flow graphs used as inputs -/

/-- A source-level (non-synthetic) variable. -/
def lvar (n : Nat) : LocalVariable := ⟨n, 0, false, false⟩

/-- A compiler-minted synthetic temporary. -/
def svar (n : Nat) : LocalVariable := ⟨n, 0, true, false⟩

/-- The `blockCall`-named condition variable marking block headers. -/
def vBlockCall : LocalVariable := ⟨blockCallNameId, 0, true, false⟩

/-- Shorthand block constructor (empty `args`, clear flags). -/
def mkBlock (i : Nat) (exprs : List Binding) (cond : Option LocalVariable)
    (t e : Nat) (bes : List Nat) (depth : Nat) : BasicBlock :=
  ⟨i, exprs, ⟨cond, t, e⟩, bes, depth, [], 0⟩

/-- A structurally valid CFG on which the then-shortcut fires with the entry
block as subject while the entry's `elseb` also targets the shortcut block:
entry `0` exits unconditionally to the empty blockCall-guarded block `1`
(two predecessors, so neither R3a nor R3b applies), which exits
unconditionally to `2`; `3` is a second predecessor of `1`; `4` is dead. -/
def exC4 : CFG :=
  { basicBlocks :=
      [ mkBlock 0 [] none 1 1 [] 0
      , mkBlock 1 [] (some vBlockCall) 2 2 [0, 3] 0
      , mkBlock 2 [⟨lvar 12, .intLit 3⟩] none 4 4 [1] 0
      , mkBlock 3 [] none 1 4 [] 0
      , mkBlock 4 [] none 4 4 [2, 3] 0 ]
    entryId := 0, deadId := 4
    forwardsTopoSort := [4, 2, 1, 3, 0], backwardsTopoSort := [0, 3, 1, 2, 4]
    minLoops := [], maxLoopWrite := [] }

/-- A structurally valid CFG on which simplify diverges: the entry block's
`thenb` enters a 2-cycle of empty unconditional blocks `1 ⇄ 2`, so the
then-shortcut keeps retargeting `entry.bexit.thenb` between `1` and `2`
forever. -/
def exC5 : CFG :=
  { basicBlocks :=
      [ mkBlock 0 [] none 1 3 [] 0
      , mkBlock 1 [] none 2 2 [0, 2] 0
      , mkBlock 2 [] none 1 1 [1] 0
      , mkBlock 3 [] none 3 3 [0] 0 ]
    entryId := 0, deadId := 3
    forwardsTopoSort := [3, 2, 1, 0], backwardsTopoSort := [0, 1, 2, 3]
    minLoops := [], maxLoopWrite := [] }

/-- The state reached from `exC5` after one R4 application at the entry. -/
def exC5b : CFG :=
  { basicBlocks :=
      [ mkBlock 0 [] none 2 3 [] 0
      , mkBlock 1 [] none 2 2 [2] 0
      , mkBlock 2 [] none 1 1 [1, 0] 0
      , mkBlock 3 [] none 3 3 [0] 0 ]
    entryId := 0, deadId := 3
    forwardsTopoSort := [3, 2, 1, 0], backwardsTopoSort := [0, 1, 2, 3]
    minLoops := [], maxLoopWrite := [] }

/-- The state reached from `exC5b` after one more R4 application. -/
def exC5c : CFG :=
  { basicBlocks :=
      [ mkBlock 0 [] none 1 3 [] 0
      , mkBlock 1 [] none 2 2 [2, 0] 0
      , mkBlock 2 [] none 1 1 [1] 0
      , mkBlock 3 [] none 3 3 [0] 0 ]
    entryId := 0, deadId := 3
    forwardsTopoSort := [3, 2, 1, 0], backwardsTopoSort := [0, 1, 2, 3]
    minLoops := [], maxLoopWrite := [] }

/-- A structurally valid CFG whose entry block `0` has a unique unconditional
successor `1` with a single back-edge: R3a fires with the entry as subject
and merges `1` into the entry. -/
def exC3 : CFG :=
  { basicBlocks :=
      [ mkBlock 0 [⟨lvar 10, .intLit 1⟩] none 1 1 [] 0
      , mkBlock 1 [⟨lvar 11, .intLit 2⟩] none 2 2 [0] 0
      , mkBlock 2 [] none 2 2 [1] 0 ]
    entryId := 0, deadId := 2
    forwardsTopoSort := [2, 1, 0], backwardsTopoSort := [0, 1, 2]
    minLoops := [], maxLoopWrite := [] }

/-- A structurally valid CFG in which blocks `1` and `2` are unreachable:
simplify prunes them, leaving blocks with ids `{0, 3, 4}` — a 3-element
arena whose maximal id is `4`.  (The topo-sort arrays are empty because in
the driver simplify runs before the topo sorts are computed.) -/
def exC1 : CFG :=
  { basicBlocks :=
      [ mkBlock 0 [] (some (lvar 9)) 3 4 [] 0
      , mkBlock 1 [] none 4 4 [] 0
      , mkBlock 2 [] none 4 4 [] 0
      , mkBlock 3 [⟨lvar 13, .intLit 7⟩] none 4 4 [0] 0
      , mkBlock 4 [] none 4 4 [0, 1, 2, 3] 0 ]
    entryId := 0, deadId := 4
    forwardsTopoSort := [], backwardsTopoSort := []
    minLoops := [], maxLoopWrite := [] }

/-- The size the C++ gives the per-block scratch arrays of dealias
(`outAliases.resize(cfg.basicBlocks.size())`) and of fillInBlockArguments
(`vector<unordered_set<...>> xs(cfg.basicBlocks.size())`). -/
def scratchSize (cfg : CFG) : Nat := cfg.basicBlocks.length

/-- Whether every index `bb->id` used on those arrays is in bounds. -/
def scratchIndicesInBounds (cfg : CFG) : Bool :=
  cfg.basicBlocks.all (fun b => b.id < scratchSize cfg)

/-- C4.  The claim says back-edge consistency holds after every individual
rule application of simplify.  It does not: on the structurally valid
`exC4`, the first rule to fire is R4 with the entry block as subject, whose
`thenb` and `elseb` both point at the empty blockCall-guarded block `1`;
R4 erases the entry from block `1`'s back-edges although the entry's
`elseb` still targets block `1`, so the resulting graph fails the
`backedge unset for elseb` check of `sanityCheck` (the code's own
assertion, which the spec echoes). -/
theorem c4_back_edge_consistency_broken_by_r4 :
    backEdgeConsistent exC4 = true ∧
    (passStep exC4 0).map (fun r => (r.1, backEdgeConsistent r.2.1, r.2.2)) =
      some (some .r4, false, 0) :=
  ⟨rfl, rfl⟩

/-- C5.  The claim says simplify halts on every structurally valid input.
It does not: on `exC5` (back-edge consistent, as the first conjunct
checks), the then-shortcut R4 fires at the entry block on every iteration,
alternating the entry's `thenb` between the two empty blocks of the cycle,
so the `while (changed)` loop never exits — for every fuel the fuelled
driver fails to reach the fixpoint. -/
theorem c5_simplify_diverges :
    backEdgeConsistent exC5 = true ∧ ∀ fuel : Nat, simplifyFuel fuel exC5 = none := by
  refine ⟨rfl, ?_⟩
  have ha : passStep exC5 0 = some (some .r4, exC5b, 0) := by rfl
  have hb : passStep exC5b 0 = some (some .r4, exC5c, 0) := by rfl
  have hc : passStep exC5c 0 = some (some .r4, exC5b, 0) := by rfl
  have key : ∀ n : Nat, runSimp n exC5b 0 true = none ∧ runSimp n exC5c 0 true = none := by
    intro n
    induction n with
    | zero => exact ⟨rfl, rfl⟩
    | succ m ih =>
        constructor
        · show runSimp (m + 1) exC5b 0 true = none
          unfold runSimp
          rw [hb]
          exact ih.2
        · show runSimp (m + 1) exC5c 0 true = none
          unfold runSimp
          rw [hc]
          exact ih.1
  intro fuel
  cases fuel with
  | zero => rfl
  | succ m =>
      show runSimp (m + 1) exC5 0 false = none
      unfold runSimp
      rw [ha]
      exact (key m).1

/-- C3, counterexample.  The claim says every rule R1–R5 is applied only to
subjects that are neither entry nor deadBlock, and in particular that the
entry block is never merged with its unconditional successor.  On `exC3`
(back-edge consistent) simplify merges block `1` into the entry block `0`:
the finished run leaves the entry holding both bindings and block `1`'s
exit, so R3a did fire with the entry as subject. -/
theorem c3_entry_is_merged_counterexample :
    backEdgeConsistent exC3 = true ∧
    (getBlock exC3 0).map (fun b => (b.exprs, b.bexit)) =
      some ([⟨lvar 10, .intLit 1⟩], ⟨none, 1, 1⟩) ∧
    (simplifyFuel 30 exC3).map (fun c => (getBlock c 0).map (fun b => (b.exprs, b.bexit))) =
      some (some ([⟨lvar 10, .intLit 1⟩, ⟨lvar 11, .intLit 2⟩], ⟨none, 2, 2⟩)) :=
  ⟨rfl, rfl, rfl⟩

/-- C3 (amended).  Only rules R1 and R2 are restricted to subject blocks
that are neither entry nor deadBlock — consequently the entry and dead
blocks are never removed from the graph by simplify — while rules R3–R5
can take the entry block as subject (the counterexample shows the entry
being merged with its unconditional successor by R3a). -/
theorem c3_simplify_preserves_entry_and_dead (fuel : Nat) (cfg cfg' : CFG)
    (h : simplifyFuel fuel cfg = some cfg')
    (he : hasBlockId cfg cfg.entryId = true)
    (hd : hasBlockId cfg cfg.deadId = true) :
    cfg'.entryId = cfg.entryId ∧ cfg'.deadId = cfg.deadId ∧
    hasBlockId cfg' cfg'.entryId = true ∧ hasBlockId cfg' cfg'.deadId = true := by
  have sk := runSimp_skeleton fuel cfg 0 false cfg' h
  refine ⟨sk.1, sk.2.1, ?_, ?_⟩
  · rw [sk.1]
    exact sk.2.2.1 he
  · rw [sk.2.1]
    exact sk.2.2.2 hd

/-- Witness for the amended C3 at a concrete run. -/
theorem c3_simplify_preserves_entry_and_dead_witness :
    ∃ cfg' : CFG, simplifyFuel 30 exC3 = some cfg' ∧
      (cfg'.entryId = exC3.entryId ∧ cfg'.deadId = exC3.deadId ∧
       hasBlockId cfg' cfg'.entryId = true ∧ hasBlockId cfg' cfg'.deadId = true) := by
  cases hrun : simplifyFuel 30 exC3 with
  | none => exact absurd hrun (by decide)
  | some cfg' =>
      exact ⟨cfg', rfl, c3_simplify_preserves_entry_and_dead 30 exC3 cfg' hrun rfl rfl⟩

/-- C1.  The scratch arrays of dealias and fillInBlockArguments are sized
to `cfg.basicBlocks.size()` in the code, not to `max(id) + 1` as the claim
and the spec require.  After simplify prunes the two unreachable blocks of
`exC1`, the arena holds three blocks with ids `{0, 3, 4}`: indexing a
3-element scratch array with `bb->id` is out of bounds both for the dead
block (id 4) and for the live non-dead block with id 3, so the claimed
in-bounds property is false on the code. -/
theorem c1_scratch_arrays_undersized :
    backEdgeConsistent exC1 = true ∧
    (simplifyFuel 50 exC1).map scratchIndicesInBounds = some false ∧
    (simplifyFuel 50 exC1).map
      (fun c => c.basicBlocks.any
        (fun b => decide (scratchSize c ≤ b.id) && (b.id != c.deadId))) = some true :=
  ⟨rfl, by decide, by decide⟩

/-! ### Dealias (`CFGBuilder::dealias`, `maybeDealias`) -/

/-- The per-block alias map `unordered_map<LocalVariable, LocalVariable>`,
embedded as an association list with unique keys. -/
abbrev AliasMap := List (LocalVariable × LocalVariable)

/-- `aliases.find(what)`. -/
def alook (m : AliasMap) (k : LocalVariable) : Option LocalVariable :=
  match m with
  | [] => none
  | (k', v) :: rest => if k' = k then some v else alook rest k

/-- `maybeDealias`: synthetic temporaries found in the map are replaced by
their alias; everything else is returned unchanged. -/
def maybeDealias (m : AliasMap) (what : LocalVariable) : LocalVariable :=
  if what.synthetic then
    match alook m what with
    | some v => v
    | none => what
  else what

/-- The meet step at a join: keep only the entries of `cur` that `other`
maps identically (`it = current.erase(it)` on mismatch or absence). -/
def meetAlias (cur other : AliasMap) : AliasMap :=
  cur.filter (fun kv =>
    match alook other kv.1 with
    | some v2 => v2 = kv.2
    | none => false)

/-- `invalidate a stale record`: drop entries whose value is the variable
being rebound. -/
def invalidateAlias (m : AliasMap) (bindv : LocalVariable) : AliasMap :=
  m.filter (fun kv => kv.2 ≠ bindv)

/-- `current[bind.bind] = what` (operator[] overwrite). -/
def upsertAlias (m : AliasMap) (k v : LocalVariable) : AliasMap :=
  (k, v) :: m.filter (fun kv => kv.1 ≠ k)

/-- Step 2a of the loop body: the early rewrite of an `Ident` argument with
the pre-invalidation map. -/
def rewriteIdentPre (m : AliasMap) (b : Binding) : Binding :=
  match b.value with
  | .ident w => ⟨b.bind, .ident (maybeDealias m w)⟩
  | _ => b

/-- Step 2c: rewrite the operand positions (`Ident.what`, `Send.recv`,
`Send.args`, `Return.what`) with the post-invalidation map. -/
def rewriteOperands (m : AliasMap) (b : Binding) : Binding :=
  match b.value with
  | .ident w => ⟨b.bind, .ident (maybeDealias m w)⟩
  | .send r n as => ⟨b.bind, .send (maybeDealias m r) n (as.map (maybeDealias m))⟩
  | .ret w => ⟨b.bind, .ret (maybeDealias m w)⟩
  | _ => b

/-- Step 2d: record the new alias when the (rewritten) value is an `Ident`. -/
def recordAlias (m : AliasMap) (b : Binding) : AliasMap :=
  match b.value with
  | .ident w => upsertAlias m b.bind w
  | _ => m

/-- One binding of the `for (Binding &bind : bb->exprs)` loop. -/
def processBinding (m : AliasMap) (b : Binding) : Binding × AliasMap :=
  let b1 := rewriteIdentPre m b
  let m1 := invalidateAlias m b.bind
  let b2 := rewriteOperands m1 b1
  (b2, recordAlias m1 b2)

/-- The whole bindings loop, threading the alias map. -/
def processExprs (m : AliasMap) : List Binding → List Binding × AliasMap
  | [] => ([], m)
  | b :: rest =>
      let pb := processBinding m b
      let pr := processExprs pb.2 rest
      (pb.1 :: pr.1, pr.2)

/-- `outAliases[i]`: absent entries read as the default-constructed empty
map (the vector is default-initialized; blocks later in the topo order have
not been filled yet). -/
def olook (o : List (Nat × AliasMap)) (i : Nat) : AliasMap :=
  match o with
  | [] => []
  | (j, m) :: rest => if j = i then m else olook rest i

/-- The alias map on entry to a block: seed from `outAliases[backEdges[0]]`
and meet with every predecessor's out-map.  A self predecessor reads the
live `current` (the C++ copies `other` before erasing from `current`, so
the meet with itself keeps everything); predecessors not yet processed read
as the default-constructed empty map. -/
def blockCurrent (outs : List (Nat × AliasMap)) (bid : Nat) (bb : BasicBlock) : AliasMap :=
  let seed : AliasMap :=
    match bb.backEdges with
    | [] => []
    | h :: _ => olook outs h
  bb.backEdges.foldl
    (fun cur p => meetAlias cur (if p = bid then cur else olook outs p)) seed

/-- The alias map on exit from a block (what `dealias` stores in
`outAliases[bb->id]`). -/
def blockOutMap (outs : List (Nat × AliasMap)) (bid : Nat) (bb : BasicBlock) : AliasMap :=
  (processExprs (blockCurrent outs bid bb) bb.exprs).2

/-- The rewritten block: bindings processed in order, branch condition
rewritten with the final map when it exists. -/
def dealiasedBlock (outs : List (Nat × AliasMap)) (bid : Nat) (bb : BasicBlock) :
    BasicBlock :=
  { bb with
    exprs := (processExprs (blockCurrent outs bid bb) bb.exprs).1
    bexit := { bb.bexit with
      cond := match bb.bexit.cond with
        | some c => some (maybeDealias (blockOutMap outs bid bb) c)
        | none => none } }

/-- One block of the `for (BasicBlock *bb : cfg.backwardsTopoSort)` loop.
The dead block is skipped. -/
def dealiasBlockStep (dead : Nat) (acc : List BasicBlock × List (Nat × AliasMap))
    (bid : Nat) : List BasicBlock × List (Nat × AliasMap) :=
  if bid = dead then acc
  else
    match acc.1.find? (fun b => b.id == bid) with
    | none => acc
    | some bb =>
        (updateBlocksFirst acc.1 bid (fun _ => dealiasedBlock acc.2 bid bb),
         acc.2 ++ [(bid, blockOutMap acc.2 bid bb)])

/-- `CFGBuilder::dealias`. -/
def dealiasCFG (cfg : CFG) : CFG :=
  { cfg with
    basicBlocks :=
      (cfg.backwardsTopoSort.foldl (dealiasBlockStep cfg.deadId)
        (cfg.basicBlocks, [])).1 }

/-! ### The frame effect of dealias (C10) -/

/-- An operand position is only ever replaced by the result of a
`maybeDealias` lookup (in particular a non-synthetic variable is never
changed). -/
def VarRw (w w' : LocalVariable) : Prop := ∃ m : AliasMap, w' = maybeDealias m w

/-- The exit condition is absent on both sides or rewritten by
`maybeDealias`. -/
def CondRw : Option LocalVariable → Option LocalVariable → Prop
  | none, none => True
  | some c, some c' => VarRw c c'
  | _, _ => False

/-- Instructions are preserved except for `maybeDealias` rewrites of the
operand positions `Ident.what`, `Send.recv`, `Send.args[i]`, `Return.what`;
every other variant is untouched. -/
def InstrRw : Instruction → Instruction → Prop
  | .ident w, .ident w' => VarRw w w'
  | .send r n as, .send r' n' as' => n' = n ∧ VarRw r r' ∧ List.Forall₂ VarRw as as'
  | .ret w, .ret w' => VarRw w w'
  | i, i' => i' = i

/-- Per-block frame relation: identity, edges, loop depth, flags, arguments,
binding count/order and every left-hand side are preserved; only operand
positions and the exit condition are rewritten via `maybeDealias`. -/
def FrameRel (b b' : BasicBlock) : Prop :=
  b'.id = b.id ∧ b'.backEdges = b.backEdges ∧
  b'.bexit.thenb = b.bexit.thenb ∧ b'.bexit.elseb = b.bexit.elseb ∧
  b'.outerLoops = b.outerLoops ∧ b'.args = b.args ∧ b'.flags = b.flags ∧
  CondRw b.bexit.cond b'.bexit.cond ∧
  List.Forall₂ (fun e e' => e'.bind = e.bind ∧ InstrRw e.value e'.value) b.exprs b'.exprs

theorem maybeDealias_nil (w : LocalVariable) : maybeDealias [] w = w := by
  unfold maybeDealias alook
  split <;> rfl

theorem varRw_refl (w : LocalVariable) : VarRw w w :=
  ⟨[], (maybeDealias_nil w).symm⟩

theorem varRw_trans {a b c : LocalVariable} (h1 : VarRw a b) (h2 : VarRw b c) : VarRw a c := by
  obtain ⟨m1, h1⟩ := h1
  obtain ⟨m2, h2⟩ := h2
  by_cases hs : a.synthetic
  · refine ⟨[(a, c)], ?_⟩
    simp [maybeDealias, alook, hs]
  · subst h1
    subst h2
    have hb : maybeDealias m1 a = a := by simp [maybeDealias, hs]
    rw [hb]
    exact ⟨m2, rfl⟩

theorem forall₂_varRw_refl (l : List LocalVariable) : List.Forall₂ VarRw l l := by
  induction l with
  | nil => exact List.Forall₂.nil
  | cons x xs ih => exact List.Forall₂.cons (varRw_refl x) ih

theorem forall₂_trans_comp {α : Type} {R : α → α → Prop}
    (htrans : ∀ a b c, R a b → R b c → R a c) :
    ∀ {l1 l2 l3 : List α}, List.Forall₂ R l1 l2 → List.Forall₂ R l2 l3 →
      List.Forall₂ R l1 l3 := by
  intro l1 l2 l3 h12 h23
  induction h12 generalizing l3 with
  | nil => cases h23; exact List.Forall₂.nil
  | cons hx hxs ih =>
      cases h23 with
      | cons hy hys => exact List.Forall₂.cons (htrans _ _ _ hx hy) (ih hys)

theorem instrRw_refl (i : Instruction) : InstrRw i i := by
  cases i with
  | ident w => exact varRw_refl w
  | send r n as => exact ⟨rfl, varRw_refl r, forall₂_varRw_refl as⟩
  | ret w => exact varRw_refl w
  | arraySplat w => rfl
  | hashSplat w => rfl
  | boolLit b => rfl
  | stringLit s => rfl
  | symbolLit s => rfl
  | intLit i => rfl
  | floatLit f => rfl
  | self => rfl
  | loadArg i => rfl
  | newObject c => rfl

theorem instrRw_trans {a b c : Instruction} (h1 : InstrRw a b) (h2 : InstrRw b c) :
    InstrRw a c := by
  cases a <;> cases b <;> simp only [InstrRw] at h1 <;>
    first
      | exact Instruction.noConfusion h1
      | exact h1 ▸ h2
      | exact h2
      | skip
  · cases c <;> simp only [InstrRw] at h2 ⊢ <;>
      first
        | exact Instruction.noConfusion h2
        | exact varRw_trans h1 h2
  · cases c <;> simp only [InstrRw] at h2 ⊢ <;>
      first
        | exact Instruction.noConfusion h2
        | exact ⟨h2.1.trans h1.1, varRw_trans h1.2.1 h2.2.1,
            forall₂_trans_comp (R := VarRw) (fun _ _ _ ha hb => varRw_trans ha hb)
              h1.2.2 h2.2.2⟩
  · cases c <;> simp only [InstrRw] at h2 ⊢ <;>
      first
        | exact Instruction.noConfusion h2
        | exact varRw_trans h1 h2

theorem condRw_refl (c : Option LocalVariable) : CondRw c c := by
  cases c with
  | none => trivial
  | some v => exact varRw_refl v

theorem condRw_trans {a b c : Option LocalVariable} (h1 : CondRw a b) (h2 : CondRw b c) :
    CondRw a c := by
  cases a <;> cases b <;> cases c <;> simp only [CondRw] at h1 h2 ⊢ <;>
    first
      | trivial
      | exact h1.elim
      | exact h2.elim
      | exact varRw_trans h1 h2

theorem forall₂_bindRel_refl (l : List Binding) :
    List.Forall₂ (fun e e' => e'.bind = e.bind ∧ InstrRw e.value e'.value) l l := by
  induction l with
  | nil => exact List.Forall₂.nil
  | cons b rest ih => exact List.Forall₂.cons ⟨rfl, instrRw_refl b.value⟩ ih

theorem frameRel_refl (b : BasicBlock) : FrameRel b b :=
  ⟨rfl, rfl, rfl, rfl, rfl, rfl, rfl, condRw_refl _, forall₂_bindRel_refl _⟩

theorem forall₂_frameRel_refl (l : List BasicBlock) : List.Forall₂ FrameRel l l := by
  induction l with
  | nil => exact List.Forall₂.nil
  | cons b rest ih => exact List.Forall₂.cons (frameRel_refl b) ih

theorem frameRel_trans {a b c : BasicBlock} (h1 : FrameRel a b) (h2 : FrameRel b c) :
    FrameRel a c := by
  obtain ⟨i1, e1, t1, s1, o1, a1, f1, c1, x1⟩ := h1
  obtain ⟨i2, e2, t2, s2, o2, a2, f2, c2, x2⟩ := h2
  refine ⟨i2.trans i1, e2.trans e1, t2.trans t1, s2.trans s1, o2.trans o1,
    a2.trans a1, f2.trans f1, condRw_trans c1 c2, ?_⟩
  refine forall₂_trans_comp (fun e e' e'' he he' =>
    ⟨he'.1.trans he.1, instrRw_trans he.2 he'.2⟩) x1 x2

theorem forall₂_map_self {α : Type} {R : α → α → Prop} (l : List α) (f : α → α)
    (h : ∀ x, R x (f x)) : List.Forall₂ R l (l.map f) := by
  induction l with
  | nil => exact List.Forall₂.nil
  | cons x xs ih => exact List.Forall₂.cons (h x) ih

theorem processBinding_frame (m : AliasMap) (b : Binding) :
    (processBinding m b).1.bind = b.bind ∧ InstrRw b.value (processBinding m b).1.value := by
  obtain ⟨bv, val⟩ := b
  cases val
  case ident w => exact ⟨rfl, varRw_trans ⟨m, rfl⟩ ⟨invalidateAlias m bv, rfl⟩⟩
  case send r n as =>
      exact ⟨rfl, rfl, ⟨invalidateAlias m bv, rfl⟩,
        forall₂_map_self as _ (fun x => ⟨invalidateAlias m bv, rfl⟩)⟩
  case ret w => exact ⟨rfl, ⟨invalidateAlias m bv, rfl⟩⟩
  all_goals exact ⟨rfl, instrRw_refl _⟩

theorem processExprs_frame (m : AliasMap) (es : List Binding) :
    List.Forall₂ (fun e e' => e'.bind = e.bind ∧ InstrRw e.value e'.value)
      es (processExprs m es).1 := by
  induction es generalizing m with
  | nil => exact List.Forall₂.nil
  | cons b rest ih =>
      simp only [processExprs]
      exact List.Forall₂.cons (processBinding_frame m b) (ih _)

theorem forall₂_updateFirst {l0 l : List BasicBlock} {bid : Nat} {bb bb' : BasicBlock}
    (h : List.Forall₂ FrameRel l0 l) (hf : l.find? (fun b => b.id == bid) = some bb)
    (hrel : FrameRel bb bb') :
    List.Forall₂ FrameRel l0 (updateBlocksFirst l bid (fun _ => bb')) := by
  induction h with
  | nil => exact absurd hf Option.noConfusion
  | cons hx hxs ih =>
      rename_i a b l1 l2
      by_cases hb : (b.id == bid) = true
      · rw [List.find?_cons_of_pos (p := fun (x : BasicBlock) => x.id == bid) _ hb] at hf
        cases hf
        unfold updateBlocksFirst
        rw [if_pos hb]
        exact List.Forall₂.cons (frameRel_trans hx hrel) hxs
      · rw [List.find?_cons_of_neg (p := fun (x : BasicBlock) => x.id == bid) _ (by simpa using hb)] at hf
        unfold updateBlocksFirst
        rw [if_neg hb]
        exact List.Forall₂.cons hx (ih hf)

theorem frame_blockStep (dead : Nat) (acc : List BasicBlock × List (Nat × AliasMap))
    (bid : Nat) {l0 : List BasicBlock} (h : List.Forall₂ FrameRel l0 acc.1) :
    List.Forall₂ FrameRel l0 (dealiasBlockStep dead acc bid).1 := by
  simp only [dealiasBlockStep]
  split
  · exact h
  · split
    · exact h
    · rename_i bb hf
      refine forall₂_updateFirst h hf ?_
      refine ⟨rfl, rfl, rfl, rfl, rfl, rfl, rfl, ?_, processExprs_frame _ _⟩
      simp only [dealiasedBlock]
      cases hc : bb.bexit.cond with
      | none => simp only [hc]; trivial
      | some c =>
          simp only [hc]
          exact ⟨blockOutMap acc.2 bid bb, rfl⟩

theorem frame_fold (dead : Nat) (ps : List Nat) :
    ∀ (acc : List BasicBlock × List (Nat × AliasMap)) (l0 : List BasicBlock),
      List.Forall₂ FrameRel l0 acc.1 →
      List.Forall₂ FrameRel l0 (ps.foldl (dealiasBlockStep dead) acc).1 := by
  induction ps with
  | nil => intro acc l0 h; exact h
  | cons p rest ih =>
      intro acc l0 h
      exact ih _ _ (frame_blockStep dead acc p h)

/-- C10.  Dealias changes only variable operands: it preserves the block
list (ids, order and count), every block's `backEdges`, `thenb`/`elseb`
targets, `outerLoops`, `args` and flags, the number, order and left-hand
sides of all bindings, and the remaining CFG fields; the only mutations are
`maybeDealias` rewrites of `Ident.what`, `Send.recv`, `Send.args` elements,
`Return.what` and `bexit.cond`. -/
theorem c10_dealias_frame_effect (cfg : CFG) :
    (dealiasCFG cfg).entryId = cfg.entryId ∧ (dealiasCFG cfg).deadId = cfg.deadId ∧
    (dealiasCFG cfg).forwardsTopoSort = cfg.forwardsTopoSort ∧
    (dealiasCFG cfg).backwardsTopoSort = cfg.backwardsTopoSort ∧
    (dealiasCFG cfg).minLoops = cfg.minLoops ∧
    (dealiasCFG cfg).maxLoopWrite = cfg.maxLoopWrite ∧
    List.Forall₂ FrameRel cfg.basicBlocks (dealiasCFG cfg).basicBlocks :=
  ⟨rfl, rfl, rfl, rfl, rfl, rfl,
    frame_fold cfg.deadId cfg.backwardsTopoSort (cfg.basicBlocks, [])
      cfg.basicBlocks (forall₂_frameRel_refl cfg.basicBlocks)⟩

/-! ### Dealias idempotence (C8): alias-map well-formedness -/

/-- The association list has pairwise distinct keys (the `unordered_map`
invariant). -/
def KeysNodup (m : AliasMap) : Prop := (m.map (fun kv => kv.1)).Nodup

/-- Every value stored in the map is itself fully dealiased: a single
`maybeDealias` lookup is idempotent on such maps.  This is the invariant
the invalidation step of the binding loop maintains. -/
def Pinv (m : AliasMap) : Prop :=
  ∀ k v, alook m k = some v → maybeDealias m v = v

theorem alook_mem {m : AliasMap} {k v : LocalVariable} (h : alook m k = some v) :
    (k, v) ∈ m := by
  induction m with
  | nil => exact absurd h Option.noConfusion
  | cons kv rest ih =>
      obtain ⟨k', v'⟩ := kv
      unfold alook at h
      split at h
      · cases h
        rename_i hk
        subst hk
        exact List.mem_cons_self _ _
      · exact List.mem_cons_of_mem _ (ih h)

theorem alook_of_mem {m : AliasMap} {k v : LocalVariable} (hn : KeysNodup m)
    (h : (k, v) ∈ m) : alook m k = some v := by
  induction m with
  | nil => simp at h
  | cons kv rest ih =>
      obtain ⟨k', v'⟩ := kv
      rcases List.mem_cons.mp h with h1 | h1
      · cases h1
        unfold alook
        rw [if_pos rfl]
      · unfold alook
        have hk : k' ≠ k := by
          intro he
          subst he
          have : k' ∈ rest.map (fun kv => kv.1) :=
            List.mem_map.mpr ⟨(k', v), h1, rfl⟩
          exact (List.nodup_cons.mp hn).1 this
        rw [if_neg hk]
        exact ih (List.nodup_cons.mp hn).2 h1

theorem keysNodup_filter {m : AliasMap} (hn : KeysNodup m)
    (p : LocalVariable × LocalVariable → Bool) : KeysNodup (m.filter p) :=
  List.Nodup.sublist (List.Sublist.map _ (List.filter_sublist m)) hn

theorem alook_filter_some {m : AliasMap} {p : LocalVariable × LocalVariable → Bool}
    {k v : LocalVariable} (hn : KeysNodup m) (h : alook (m.filter p) k = some v) :
    alook m k = some v :=
  alook_of_mem hn (List.mem_of_mem_filter (alook_mem h))

theorem md_nonsynth {w : LocalVariable} (h : w.synthetic = false) (m : AliasMap) :
    maybeDealias m w = w := by
  unfold maybeDealias
  rw [h]
  simp

theorem md_idem {m : AliasMap} (hp : Pinv m) (w : LocalVariable) :
    maybeDealias m (maybeDealias m w) = maybeDealias m w := by
  by_cases hs : w.synthetic
  · cases ha : alook m w with
    | none =>
        unfold maybeDealias
        rw [hs, ha]
        simp [hs, ha]
    | some v =>
        have h1 : maybeDealias m w = v := by
          unfold maybeDealias
          rw [hs, ha]
          simp
        rw [h1]
        exact hp w v ha
  · rw [md_nonsynth (Bool.eq_false_iff.mpr hs) m, md_nonsynth (Bool.eq_false_iff.mpr hs) m]

theorem reduced_filter {m : AliasMap} {w : LocalVariable}
    (hn : KeysNodup m) (hw : maybeDealias m w = w)
    (p : LocalVariable × LocalVariable → Bool) :
    maybeDealias (m.filter p) w = w := by
  by_cases hs : w.synthetic
  · cases ha : alook (m.filter p) w with
    | none =>
        unfold maybeDealias
        rw [hs, ha]
        simp
    | some u =>
        have ha' : alook m w = some u := alook_filter_some hn ha
        have : u = w := by
          unfold maybeDealias at hw
          rw [hs, ha'] at hw
          simpa using hw
        unfold maybeDealias
        rw [hs, ha]
        simpa using this
  · exact md_nonsynth (Bool.eq_false_iff.mpr hs) _

theorem pinv_filter {m : AliasMap} (hn : KeysNodup m) (hp : Pinv m)
    (p : LocalVariable × LocalVariable → Bool) : Pinv (m.filter p) := by
  intro k v ha
  exact reduced_filter hn (hp k v (alook_filter_some hn ha)) p

theorem alook_cons (k1 v1 : LocalVariable) (rest : AliasMap) (k : LocalVariable) :
    alook ((k1, v1) :: rest) k = if k1 = k then some v1 else alook rest k := rfl

theorem alook_filter_keyne {m : AliasMap} {k k' : LocalVariable} (h : k' ≠ k) :
    alook (m.filter (fun kv => kv.1 ≠ k)) k' = alook m k' := by
  induction m with
  | nil => rfl
  | cons kv rest ih =>
      obtain ⟨k1, v1⟩ := kv
      by_cases hk1 : k1 = k
      · subst hk1
        have hf : ((k1, v1) :: rest).filter (fun kv => kv.1 ≠ k1) =
            rest.filter (fun kv => kv.1 ≠ k1) := by simp
        have ha : alook ((k1, v1) :: rest) k' = alook rest k' := by
          rw [alook_cons, if_neg (fun he => h he.symm)]
        rw [hf, ih, ha]
      · have hf : ((k1, v1) :: rest).filter (fun kv => kv.1 ≠ k) =
            (k1, v1) :: rest.filter (fun kv => kv.1 ≠ k) := by simp [hk1]
        rw [hf, alook_cons, alook_cons]
        by_cases hk' : k1 = k'
        · rw [if_pos hk', if_pos hk']
        · rw [if_neg hk', if_neg hk', ih]

theorem alook_upsert_self (m : AliasMap) (k v : LocalVariable) :
    alook (upsertAlias m k v) k = some v := by
  unfold upsertAlias
  rw [alook_cons, if_pos rfl]

theorem alook_upsert_ne {m : AliasMap} {k k' v : LocalVariable} (h : k' ≠ k) :
    alook (upsertAlias m k v) k' = alook m k' := by
  unfold upsertAlias
  rw [alook_cons, if_neg (fun he => h he.symm), alook_filter_keyne h]

theorem md_upsert_of_ne {m : AliasMap} {x b w : LocalVariable} (h : x ≠ b) :
    maybeDealias (upsertAlias m b w) x = maybeDealias m x := by
  unfold maybeDealias
  rw [alook_upsert_ne h]

theorem keysNodup_upsert {m : AliasMap} (hn : KeysNodup m) (k v : LocalVariable) :
    KeysNodup (upsertAlias m k v) := by
  unfold upsertAlias KeysNodup
  rw [List.map_cons]
  refine List.nodup_cons.mpr ⟨?_, keysNodup_filter hn _⟩
  intro hmem
  obtain ⟨⟨k1, v1⟩, hkv, hk1⟩ := List.mem_map.mp hmem
  have := List.of_mem_filter hkv
  simp only [decide_eq_true_eq] at this
  exact this (by simpa using hk1)

theorem alook_invalidate_valne {m : AliasMap} {bindv k v : LocalVariable}
    (h : alook (invalidateAlias m bindv) k = some v) : v ≠ bindv := by
  have := List.of_mem_filter (alook_mem h)
  simpa using this

theorem pinv_upsert {m1 : AliasMap} {bindv w : LocalVariable}
    (hn : KeysNodup m1) (hp : Pinv m1)
    (hw : maybeDealias m1 w = w)
    (hnb : ∀ k v, alook m1 k = some v → v ≠ bindv) :
    Pinv (upsertAlias m1 bindv w) := by
  intro k v ha
  by_cases hk : k = bindv
  · rw [hk, alook_upsert_self] at ha
    have hv : v = w := by injection ha with h2; exact h2.symm
    rw [hv]
    by_cases hs : w.synthetic = true
    · by_cases hvb : w = bindv
      · have hlook : alook (upsertAlias m1 bindv w) w = some w := by
          rw [hvb]
          exact alook_upsert_self _ _ _
        simp [maybeDealias, hs, hlook]
      · rw [md_upsert_of_ne hvb]
        exact hw
    · exact md_nonsynth (by simpa using hs) _
  · rw [alook_upsert_ne hk] at ha
    rw [md_upsert_of_ne (hnb k v ha)]
    exact hp k v ha

/-- The alias map produced by one loop-body iteration stays well formed. -/
theorem good_processBinding {m : AliasMap} (hn : KeysNodup m) (hp : Pinv m)
    (b : Binding) :
    KeysNodup (processBinding m b).2 ∧ Pinv (processBinding m b).2 := by
  obtain ⟨bv, val⟩ := b
  have hn1 : KeysNodup (invalidateAlias m bv) := keysNodup_filter hn _
  have hp1 : Pinv (invalidateAlias m bv) := pinv_filter hn hp _
  cases val
  case ident w =>
      refine ⟨keysNodup_upsert hn1 _ _, ?_⟩
      refine pinv_upsert hn1 hp1 (md_idem hp1 _) ?_
      intro k v ha
      exact alook_invalidate_valne ha
  all_goals exact ⟨hn1, hp1⟩

/-- One loop-body iteration is idempotent on well-formed maps: re-running
the rewrite of an already-rewritten binding with the same incoming map
changes nothing. -/
theorem processBinding_idem {m : AliasMap} (hn : KeysNodup m) (hp : Pinv m) (b : Binding) :
    processBinding m (processBinding m b).1 = processBinding m b := by
  obtain ⟨bv, val⟩ := b
  have hp1 : Pinv (invalidateAlias m bv) := pinv_filter hn hp _
  cases val
  case ident w =>
      have hw1 : maybeDealias m (maybeDealias m w) = maybeDealias m w := md_idem hp w
      have hw2 : maybeDealias (invalidateAlias m bv) (maybeDealias m w) = maybeDealias m w :=
        reduced_filter hn (md_idem hp w) _
      simp only [processBinding, rewriteIdentPre, rewriteOperands, recordAlias, hw1, hw2]
  case send r n as =>
      have hr : maybeDealias (invalidateAlias m bv) (maybeDealias (invalidateAlias m bv) r) =
          maybeDealias (invalidateAlias m bv) r := md_idem hp1 r
      have has : (as.map (maybeDealias (invalidateAlias m bv))).map
            (maybeDealias (invalidateAlias m bv)) =
          as.map (maybeDealias (invalidateAlias m bv)) := by
        rw [List.map_map]
        refine List.map_congr_left ?_
        intro x hx
        exact md_idem hp1 x
      simp only [processBinding, rewriteIdentPre, rewriteOperands, recordAlias, hr, has]
  case ret w =>
      have hw : maybeDealias (invalidateAlias m bv) (maybeDealias (invalidateAlias m bv) w) =
          maybeDealias (invalidateAlias m bv) w := md_idem hp1 w
      simp only [processBinding, rewriteIdentPre, rewriteOperands, recordAlias, hw]
  all_goals rfl

theorem good_processExprs (es : List Binding) :
    ∀ (m : AliasMap), KeysNodup m → Pinv m →
      KeysNodup (processExprs m es).2 ∧ Pinv (processExprs m es).2 := by
  induction es with
  | nil => intro m hn hp; exact ⟨hn, hp⟩
  | cons b rest ih =>
      intro m hn hp
      simp only [processExprs]
      exact ih _ (good_processBinding hn hp b).1 (good_processBinding hn hp b).2

/-- The bindings loop is idempotent from any well-formed incoming map. -/
theorem processExprs_idem (es : List Binding) :
    ∀ (m : AliasMap), KeysNodup m → Pinv m →
      processExprs m (processExprs m es).1 = processExprs m es := by
  induction es with
  | nil => intro m hn hp; rfl
  | cons b rest ih =>
      intro m hn hp
      have hb := processBinding_idem hn hp b
      have hg := good_processBinding hn hp b
      simp only [processExprs, hb]
      rw [ih _ hg.1 hg.2]

/-- Every stored out-map is well formed. -/
def GoodOuts (o : List (Nat × AliasMap)) : Prop :=
  ∀ e ∈ o, KeysNodup e.2 ∧ Pinv e.2

theorem good_olook {o : List (Nat × AliasMap)} (h : GoodOuts o) (i : Nat) :
    KeysNodup (olook o i) ∧ Pinv (olook o i) := by
  induction o with
  | nil =>
      refine ⟨List.nodup_nil, ?_⟩
      intro k v hv
      exact absurd hv Option.noConfusion
  | cons e rest ih =>
      obtain ⟨j, mm⟩ := e
      unfold olook
      split
      · exact h (j, mm) (List.mem_cons_self _ _)
      · exact ih (fun e he => h e (List.mem_cons_of_mem _ he))

theorem goodOuts_append {o : List (Nat × AliasMap)} (h : GoodOuts o) {bid : Nat}
    {m : AliasMap} (hm : KeysNodup m ∧ Pinv m) : GoodOuts (o ++ [(bid, m)]) := by
  intro e he
  rcases List.mem_append.mp he with h1 | h1
  · exact h e h1
  · have : e = (bid, m) := by simpa using h1
    rw [this]
    exact hm

theorem good_blockCurrent {outs : List (Nat × AliasMap)} (h : GoodOuts outs)
    (bid : Nat) (bb : BasicBlock) :
    KeysNodup (blockCurrent outs bid bb) ∧ Pinv (blockCurrent outs bid bb) := by
  unfold blockCurrent
  have hseed : KeysNodup (match bb.backEdges with
      | [] => ([] : AliasMap)
      | h :: _ => olook outs h) ∧ Pinv (match bb.backEdges with
      | [] => ([] : AliasMap)
      | h :: _ => olook outs h) := by
    cases bb.backEdges with
    | nil =>
        refine ⟨List.nodup_nil, ?_⟩
        intro k v hv
        exact absurd hv Option.noConfusion
    | cons hh tt => exact good_olook h hh
  generalize (match bb.backEdges with
      | [] => ([] : AliasMap)
      | h :: _ => olook outs h) = seed at hseed ⊢
  clear h
  induction bb.backEdges generalizing seed with
  | nil => exact hseed
  | cons p rest ih =>
      simp only [List.foldl_cons]
      exact ih _ ⟨keysNodup_filter hseed.1 _, pinv_filter hseed.1 hseed.2 _⟩

theorem good_blockOutMap {outs : List (Nat × AliasMap)} (h : GoodOuts outs)
    (bid : Nat) (bb : BasicBlock) :
    KeysNodup (blockOutMap outs bid bb) ∧ Pinv (blockOutMap outs bid bb) := by
  unfold blockOutMap
  have hc := good_blockCurrent h bid bb
  exact good_processExprs bb.exprs _ hc.1 hc.2

/-- Rerunning the block rewrite with the same stored out-maps is the
identity on an already-rewritten block, and recomputes the same out-map. -/
theorem dealiasedBlock_idem {outs : List (Nat × AliasMap)} (h : GoodOuts outs)
    (bid : Nat) (bb : BasicBlock) :
    blockOutMap outs bid (dealiasedBlock outs bid bb) = blockOutMap outs bid bb ∧
    dealiasedBlock outs bid (dealiasedBlock outs bid bb) = dealiasedBlock outs bid bb := by
  have hg := good_blockCurrent h bid bb
  have hpe := processExprs_idem bb.exprs (blockCurrent outs bid bb) hg.1 hg.2
  have hcur : blockCurrent outs bid (dealiasedBlock outs bid bb) =
      blockCurrent outs bid bb := rfl
  have hout : blockOutMap outs bid (dealiasedBlock outs bid bb) = blockOutMap outs bid bb := by
    show (processExprs (blockCurrent outs bid (dealiasedBlock outs bid bb))
        (dealiasedBlock outs bid bb).exprs).2 = _
    rw [hcur]
    show (processExprs (blockCurrent outs bid bb)
        (processExprs (blockCurrent outs bid bb) bb.exprs).1).2 = _
    rw [hpe]
    rfl
  refine ⟨hout, ?_⟩
  have hpinv : Pinv (blockOutMap outs bid bb) := (good_blockOutMap h bid bb).2
  have hE : (processExprs (blockCurrent outs bid (dealiasedBlock outs bid bb))
      (dealiasedBlock outs bid bb).exprs).1 = (dealiasedBlock outs bid bb).exprs := by
    rw [hcur]
    show (processExprs (blockCurrent outs bid bb)
        (processExprs (blockCurrent outs bid bb) bb.exprs).1).1 = _
    rw [hpe]
    rfl
  have hC : (match (dealiasedBlock outs bid bb).bexit.cond with
      | some c => some (maybeDealias (blockOutMap outs bid (dealiasedBlock outs bid bb)) c)
      | none => none) = (dealiasedBlock outs bid bb).bexit.cond := by
    rw [hout]
    cases hc : bb.bexit.cond with
    | none =>
        have : (dealiasedBlock outs bid bb).bexit.cond = none := by
          simp only [dealiasedBlock, hc]
        rw [this]
    | some c =>
        have : (dealiasedBlock outs bid bb).bexit.cond =
            some (maybeDealias (blockOutMap outs bid bb) c) := by
          simp only [dealiasedBlock, hc]
        rw [this]
        show some (maybeDealias (blockOutMap outs bid bb)
          (maybeDealias (blockOutMap outs bid bb) c)) = _
        rw [md_idem hpinv]
  show { dealiasedBlock outs bid bb with
      exprs := (processExprs (blockCurrent outs bid (dealiasedBlock outs bid bb))
        (dealiasedBlock outs bid bb).exprs).1
      bexit := { (dealiasedBlock outs bid bb).bexit with
        cond := match (dealiasedBlock outs bid bb).bexit.cond with
          | some c => some (maybeDealias (blockOutMap outs bid (dealiasedBlock outs bid bb)) c)
          | none => none } } = dealiasedBlock outs bid bb
  rw [hE, hC]

theorem updateBlocksFirst_self {l : List BasicBlock} {bid : Nat} {bb' : BasicBlock}
    (h : l.find? (fun b => b.id == bid) = some bb') :
    updateBlocksFirst l bid (fun _ => bb') = l := by
  induction l with
  | nil => exact absurd h Option.noConfusion
  | cons b rest ih =>
      by_cases hb : (b.id == bid) = true
      · rw [List.find?_cons_of_pos (p := fun (x : BasicBlock) => x.id == bid) _ hb] at h
        cases h
        unfold updateBlocksFirst
        rw [if_pos hb]
      · rw [List.find?_cons_of_neg (p := fun (x : BasicBlock) => x.id == bid) _ hb] at h
        unfold updateBlocksFirst
        rw [if_neg hb, ih h]

theorem find?_updateFirst_self {l : List BasicBlock} {bid : Nat} {bb blk' : BasicBlock}
    (h : l.find? (fun b => b.id == bid) = some bb) (hid : blk'.id = bb.id) :
    (updateBlocksFirst l bid (fun _ => blk')).find? (fun b => b.id == bid) = some blk' := by
  induction l with
  | nil => exact absurd h Option.noConfusion
  | cons b rest ih =>
      by_cases hb : (b.id == bid) = true
      · rw [List.find?_cons_of_pos (p := fun (x : BasicBlock) => x.id == bid) _ hb] at h
        cases h
        unfold updateBlocksFirst
        rw [if_pos hb]
        have : (blk'.id == bid) = true := by
          rw [hid]
          exact hb
        rw [List.find?_cons_of_pos (p := fun (x : BasicBlock) => x.id == bid) _ this]
      · rw [List.find?_cons_of_neg (p := fun (x : BasicBlock) => x.id == bid) _ hb] at h
        unfold updateBlocksFirst
        rw [if_neg hb]
        rw [List.find?_cons_of_neg (p := fun (x : BasicBlock) => x.id == bid) _ hb]
        exact ih h

theorem find?_updateFirst_ne {l : List BasicBlock} {bid p : Nat} {blk' : BasicBlock}
    (hne : p ≠ bid) (hid : blk'.id = bid) :
    (updateBlocksFirst l bid (fun _ => blk')).find? (fun b => b.id == p) =
      l.find? (fun b => b.id == p) := by
  induction l with
  | nil => rfl
  | cons b rest ih =>
      by_cases hb : (b.id == bid) = true
      · have hbid : b.id = bid := by simpa using hb
        unfold updateBlocksFirst
        rw [if_pos hb]
        have h1 : ¬ (blk'.id == p) = true := by
          simp only [beq_iff_eq, hid]
          exact fun he => hne he.symm
        have h2 : ¬ (b.id == p) = true := by
          simp only [beq_iff_eq, hbid]
          exact fun he => hne he.symm
        rw [List.find?_cons_of_neg (p := fun (x : BasicBlock) => x.id == p) _ h1,
          List.find?_cons_of_neg (p := fun (x : BasicBlock) => x.id == p) _ h2]
      · unfold updateBlocksFirst
        rw [if_neg hb]
        by_cases hp2 : (b.id == p) = true
        · rw [List.find?_cons_of_pos (p := fun (x : BasicBlock) => x.id == p) _ hp2,
            List.find?_cons_of_pos (p := fun (x : BasicBlock) => x.id == p) _ hp2]
        · rw [List.find?_cons_of_neg (p := fun (x : BasicBlock) => x.id == p) _ hp2,
            List.find?_cons_of_neg (p := fun (x : BasicBlock) => x.id == p) _ hp2, ih]

theorem blockStep_find?_ne (dead : Nat) (acc : List BasicBlock × List (Nat × AliasMap))
    (bid p : Nat) (hne : p ≠ bid) :
    (dealiasBlockStep dead acc bid).1.find? (fun b => b.id == p) =
      acc.1.find? (fun b => b.id == p) := by
  simp only [dealiasBlockStep]
  split
  · rfl
  · split
    · rfl
    · rename_i bb hf
      have hbid : bb.id = bid := by simpa using List.find?_some hf
      exact find?_updateFirst_ne hne hbid

theorem blockStep_goodOuts (dead : Nat) (acc : List BasicBlock × List (Nat × AliasMap))
    (bid : Nat) (h : GoodOuts acc.2) : GoodOuts (dealiasBlockStep dead acc bid).2 := by
  simp only [dealiasBlockStep]
  split
  · exact h
  · split
    · exact h
    · rename_i bb hf
      exact goodOuts_append h (good_blockOutMap h bid bb)

theorem fold_find?_ne (dead : Nat) (ps : List Nat) (p : Nat) (hp : p ∉ ps) :
    ∀ acc, ((ps.foldl (dealiasBlockStep dead) acc).1.find? (fun b => b.id == p)) =
      acc.1.find? (fun b => b.id == p) := by
  induction ps with
  | nil => intro acc; rfl
  | cons q rest ih =>
      intro acc
      simp only [List.foldl_cons]
      rw [ih (fun hmem => hp (List.mem_cons_of_mem _ hmem))]
      exact blockStep_find?_ne dead acc q p (fun he => hp (he ▸ List.mem_cons_self _ _))

theorem fold_goodOuts (dead : Nat) (ps : List Nat) :
    ∀ acc, GoodOuts acc.2 → GoodOuts ((ps.foldl (dealiasBlockStep dead) acc).2) := by
  induction ps with
  | nil => intro acc h; exact h
  | cons q rest ih =>
      intro acc h
      simp only [List.foldl_cons]
      exact ih _ (blockStep_goodOuts dead acc q h)

/-- Replaying the whole dealias pass over the blocks it produced, starting
from the same stored out-maps, changes nothing. -/
theorem dealias_replay (dead : Nat) (ps : List Nat) :
    ∀ (B : List BasicBlock) (O : List (Nat × AliasMap)),
      ps.Nodup → GoodOuts O →
      ps.foldl (dealiasBlockStep dead)
          ((ps.foldl (dealiasBlockStep dead) (B, O)).1, O) =
        ps.foldl (dealiasBlockStep dead) (B, O) := by
  induction ps with
  | nil => intro B O _ _; rfl
  | cons p rest ih =>
      intro B O hnd hgood
      have hp_rest : p ∉ rest := (List.nodup_cons.mp hnd).1
      have hrest_nd : rest.Nodup := (List.nodup_cons.mp hnd).2
      simp only [List.foldl_cons]
      by_cases hpd : p = dead
      · have hS : dealiasBlockStep dead (B, O) p = (B, O) := by
          simp only [dealiasBlockStep, if_pos hpd]
        rw [hS]
        have hkey : dealiasBlockStep dead
            ((rest.foldl (dealiasBlockStep dead) (B, O)).1, O) p =
            ((rest.foldl (dealiasBlockStep dead) (B, O)).1, O) := by
          simp only [dealiasBlockStep, if_pos hpd]
        rw [hkey]
        exact ih B O hrest_nd hgood
      · cases hf : B.find? (fun b => b.id == p) with
        | none =>
            have hS : dealiasBlockStep dead (B, O) p = (B, O) := by
              simp only [dealiasBlockStep, if_neg hpd, hf]
            rw [hS]
            have hfind : ((rest.foldl (dealiasBlockStep dead) (B, O)).1.find?
                (fun b => b.id == p)) = none := by
              rw [fold_find?_ne dead rest p hp_rest (B, O)]
              exact hf
            have hkey : dealiasBlockStep dead
                ((rest.foldl (dealiasBlockStep dead) (B, O)).1, O) p =
                ((rest.foldl (dealiasBlockStep dead) (B, O)).1, O) := by
              simp only [dealiasBlockStep, if_neg hpd, hfind]
            rw [hkey]
            exact ih B O hrest_nd hgood
        | some bb =>
            have hS : dealiasBlockStep dead (B, O) p =
                (updateBlocksFirst B p (fun _ => dealiasedBlock O p bb),
                 O ++ [(p, blockOutMap O p bb)]) := by
              simp only [dealiasBlockStep, if_neg hpd, hf]
            rw [hS]
            have hgood2 : GoodOuts (O ++ [(p, blockOutMap O p bb)]) :=
              goodOuts_append hgood (good_blockOutMap hgood p bb)
            have hbid : bb.id = p := by simpa using List.find?_some hf
            have hfind1 : ((updateBlocksFirst B p (fun _ => dealiasedBlock O p bb)).find?
                (fun b => b.id == p)) = some (dealiasedBlock O p bb) :=
              find?_updateFirst_self hf rfl
            have hfind : ((rest.foldl (dealiasBlockStep dead)
                (updateBlocksFirst B p (fun _ => dealiasedBlock O p bb),
                 O ++ [(p, blockOutMap O p bb)])).1.find?
                (fun b => b.id == p)) = some (dealiasedBlock O p bb) := by
              rw [fold_find?_ne dead rest p hp_rest]
              exact hfind1
            have hidem := dealiasedBlock_idem hgood p bb
            have hkey : dealiasBlockStep dead
                ((rest.foldl (dealiasBlockStep dead)
                  (updateBlocksFirst B p (fun _ => dealiasedBlock O p bb),
                   O ++ [(p, blockOutMap O p bb)])).1, O) p =
                ((rest.foldl (dealiasBlockStep dead)
                  (updateBlocksFirst B p (fun _ => dealiasedBlock O p bb),
                   O ++ [(p, blockOutMap O p bb)])).1,
                 O ++ [(p, blockOutMap O p bb)]) := by
              simp only [dealiasBlockStep, if_neg hpd, hfind]
              rw [hidem.2, hidem.1]
              rw [updateBlocksFirst_self hfind]
            rw [hkey]
            exact ih _ _ hrest_nd hgood2

/-- C8.  Dealias is idempotent: with the same backwards topo-sort (which
dealias does not modify), running the pass a second time on the CFG it
produced is the identity — no rewritable operand survives the first run. -/
theorem c8_dealias_idempotent (cfg : CFG) (htopo : cfg.backwardsTopoSort.Nodup) :
    dealiasCFG (dealiasCFG cfg) = dealiasCFG cfg := by
  have hnil : GoodOuts [] := by
    intro e he
    simp at he
  have hrep := dealias_replay cfg.deadId cfg.backwardsTopoSort cfg.basicBlocks []
    htopo hnil
  show ({ cfg with basicBlocks :=
      (cfg.backwardsTopoSort.foldl (dealiasBlockStep cfg.deadId)
        (((cfg.backwardsTopoSort.foldl (dealiasBlockStep cfg.deadId)
          (cfg.basicBlocks, [])).1), [])).1 } : CFG) =
    { cfg with basicBlocks :=
      (cfg.backwardsTopoSort.foldl (dealiasBlockStep cfg.deadId)
        (cfg.basicBlocks, [])).1 }
  rw [hrep]

/-- A CFG with a genuine copy chain (`s20 = x; s21 = s20; y = r.m(s21)` and
a branch on `s21`), for exercising dealias concretely. -/
def exC8 : CFG :=
  { basicBlocks :=
      [ mkBlock 0
          [ ⟨svar 20, .ident (lvar 5)⟩
          , ⟨svar 21, .ident (svar 20)⟩
          , ⟨lvar 6, .send (lvar 7) 3 [svar 21]⟩ ]
          (some (svar 21)) 1 1 [] 0
      , mkBlock 1 [] none 1 1 [0] 0 ]
    entryId := 0, deadId := 1
    forwardsTopoSort := [1, 0], backwardsTopoSort := [0, 1]
    minLoops := [], maxLoopWrite := [] }

/-- Witness for C8 at a concrete CFG with an actual copy chain. -/
theorem c8_dealias_idempotent_witness :
    exC8.backwardsTopoSort.Nodup ∧ dealiasCFG (dealiasCFG exC8) = dealiasCFG exC8 :=
  ⟨by decide, c8_dealias_idempotent exC8 (by decide)⟩

/-! ### ReadsAndWrites and `computeMinMaxLoops` (C2) -/

/-- `CFG::ReadsAndWrites`: per-variable sets of reading and writing blocks
(block ids). -/
structure ReadsAndWrites where
  reads : List (LocalVariable × List Nat)
  writes : List (LocalVariable × List Nat)
deriving DecidableEq, Repr

/-- `INT_MAX`, the initial value inserted into `minLoops`. -/
def INT_MAX : Int := 2147483647

/-- `bb->outerLoops` of the block with id `i`. -/
def outerLoopsOf (cfg : CFG) (i : Nat) : Int :=
  match getBlock cfg i with
  | some b => (b.outerLoops : Int)
  | none => 0

/-- Generic first-match association lookup with `LocalVariable` keys. -/
def klook {β : Type} (m : List (LocalVariable × β)) (k : LocalVariable) : Option β :=
  match m with
  | [] => none
  | (k', v) :: rest => if k' = k then some v else klook rest k

/-- Overwrite-or-insert with `LocalVariable` keys (`operator[]` assignment). -/
def upsertK {β : Type} (m : List (LocalVariable × β)) (k : LocalVariable) (v : β) :
    List (LocalVariable × β) :=
  (k, v) :: m.filter (fun kv => kv.1 ≠ k)

/-- One entry of the minLoops loops: `cfg.minLoops.insert({what, INT_MAX})`
(no overwrite) followed by `if (min > bb->outerLoops) min = bb->outerLoops`
over the listed blocks. -/
def bumpMin (cfg : CFG) (ml : List (LocalVariable × Int)) (what : LocalVariable)
    (whs : List Nat) : List (LocalVariable × Int) :=
  let cur := (klook ml what).getD INT_MAX
  let newv := whs.foldl
    (fun mn i => if mn > outerLoopsOf cfg i then outerLoopsOf cfg i else mn) cur
  upsertK ml what newv

/-- One entry of the maxLoopWrite loop: `insert({what, 0})` followed by
`if (max < bb->outerLoops) max = bb->outerLoops`. -/
def bumpMax (cfg : CFG) (mx : List (LocalVariable × Int)) (what : LocalVariable)
    (whs : List Nat) : List (LocalVariable × Int) :=
  let cur := (klook mx what).getD 0
  let newv := whs.foldl
    (fun mx2 i => if mx2 < outerLoopsOf cfg i then outerLoopsOf cfg i else mx2) cur
  upsertK mx what newv

/-- `CFGBuilder::computeMinMaxLoops`: the reads loop updates `minLoops`,
the writes loop updates both `minLoops` (lowering further) and
`maxLoopWrite`. -/
def computeMinMaxLoops (rw : ReadsAndWrites) (cfg : CFG) : CFG :=
  let ml1 := rw.reads.foldl (fun ml p => bumpMin cfg ml p.1 p.2) cfg.minLoops
  let ml2 := rw.writes.foldl (fun ml p => bumpMin cfg ml p.1 p.2) ml1
  let mx2 := rw.writes.foldl (fun mx p => bumpMax cfg mx p.1 p.2) cfg.maxLoopWrite
  { cfg with minLoops := ml2, maxLoopWrite := mx2 }

/-- A CFG with a block at loop depth 1 (id 1) and one at depth 2 (id 2). -/
def exCFG2 : CFG :=
  { basicBlocks := [mkBlock 1 [] none 1 1 [] 1, mkBlock 2 [] none 2 2 [] 2]
    entryId := 1, deadId := 2
    forwardsTopoSort := [], backwardsTopoSort := []
    minLoops := [], maxLoopWrite := [] }

/-- Variable read only at depth 2, written only at depth 1. -/
def exRW2 : ReadsAndWrites :=
  { reads := [(lvar 30, [2])], writes := [(lvar 30, [1])] }

/-- C2, counterexample.  The claim says the writes pass never lowers a
read-derived minimum.  It does: variable `lvar 30` is read only in the
depth-2 block, so the reads pass sets `minLoops = 2`; the writes pass then
runs the same min-fold over the writing blocks and lowers it to 1 (only the
`insert` is no-overwrite — the comment `this will NOT overrwite existing
value` covers the insertion, not the subsequent fold). -/
theorem c2_write_lowers_read_min_counterexample :
    exRW2.reads = [(lvar 30, [2])] ∧ outerLoopsOf exCFG2 2 = 2 ∧
    klook (computeMinMaxLoops exRW2 exCFG2).minLoops (lvar 30) = some 1 ∧
    (1 : Int) ≠ 2 :=
  ⟨rfl, rfl, rfl, by decide⟩

theorem klook_cons {β : Type} (k1 : LocalVariable) (v1 : β) (rest : List (LocalVariable × β))
    (k : LocalVariable) :
    klook ((k1, v1) :: rest) k = if k1 = k then some v1 else klook rest k := rfl

theorem klook_mem {β : Type} {m : List (LocalVariable × β)} {k : LocalVariable} {v : β}
    (h : klook m k = some v) : (k, v) ∈ m := by
  induction m with
  | nil => exact absurd h Option.noConfusion
  | cons kv rest ih =>
      obtain ⟨k', v'⟩ := kv
      rw [klook_cons] at h
      split at h
      · cases h
        rename_i hk
        subst hk
        exact List.mem_cons_self _ _
      · exact List.mem_cons_of_mem _ (ih h)

theorem klook_filter_keyne {β : Type} {m : List (LocalVariable × β)}
    {k k' : LocalVariable} (h : k' ≠ k) :
    klook (m.filter (fun kv => kv.1 ≠ k)) k' = klook m k' := by
  induction m with
  | nil => rfl
  | cons kv rest ih =>
      obtain ⟨k1, v1⟩ := kv
      by_cases hk1 : k1 = k
      · subst hk1
        have hf : ((k1, v1) :: rest).filter (fun kv => kv.1 ≠ k1) =
            rest.filter (fun kv => kv.1 ≠ k1) := by simp
        have ha : klook ((k1, v1) :: rest) k' = klook rest k' := by
          rw [klook_cons, if_neg (fun he => h he.symm)]
        rw [hf, ih, ha]
      · have hf : ((k1, v1) :: rest).filter (fun kv => kv.1 ≠ k) =
            (k1, v1) :: rest.filter (fun kv => kv.1 ≠ k) := by simp [hk1]
        rw [hf, klook_cons, klook_cons]
        by_cases hk' : k1 = k'
        · rw [if_pos hk', if_pos hk']
        · rw [if_neg hk', if_neg hk', ih]

theorem klook_upsertK_self {β : Type} (m : List (LocalVariable × β)) (k : LocalVariable)
    (v : β) : klook (upsertK m k v) k = some v := by
  unfold upsertK
  rw [klook_cons, if_pos rfl]

theorem klook_upsertK_ne {β : Type} {m : List (LocalVariable × β)} {k k' : LocalVariable}
    {v : β} (h : k' ≠ k) : klook (upsertK m k v) k' = klook m k' := by
  unfold upsertK
  rw [klook_cons, if_neg (fun he => h he.symm), klook_filter_keyne h]

theorem klook_bumpMin_ne {cfg : CFG} {ml : List (LocalVariable × Int)}
    {k x : LocalVariable} {whs : List Nat} (h : x ≠ k) :
    klook (bumpMin cfg ml k whs) x = klook ml x := by
  unfold bumpMin
  exact klook_upsertK_ne h

theorem klook_fold_bumpMin_ne (cfg : CFG) (es : List (LocalVariable × List Nat))
    (x : LocalVariable) (hne : ∀ p ∈ es, p.1 ≠ x) :
    ∀ ml, klook (es.foldl (fun ml p => bumpMin cfg ml p.1 p.2) ml) x = klook ml x := by
  induction es with
  | nil => intro ml; rfl
  | cons p rest ih =>
      intro ml
      simp only [List.foldl_cons]
      rw [ih (fun q hq => hne q (List.mem_cons_of_mem _ hq)) _]
      exact klook_bumpMin_ne (fun he => hne p (List.mem_cons_self _ _) he.symm)

theorem minstep_eq (cfg : CFG) :
    (fun (mn : Int) (i : Nat) =>
      if mn > outerLoopsOf cfg i then outerLoopsOf cfg i else mn) =
    (fun (mn : Int) (i : Nat) => min mn (outerLoopsOf cfg i)) := by
  funext a b
  split <;> omega

theorem klook_bumpMin_self (cfg : CFG) (ml : List (LocalVariable × Int))
    (x : LocalVariable) (whs : List Nat) :
    klook (bumpMin cfg ml x whs) x =
      some (whs.foldl (fun mn i => min mn (outerLoopsOf cfg i))
        ((klook ml x).getD INT_MAX)) := by
  unfold bumpMin
  rw [klook_upsertK_self, minstep_eq]

theorem foldl_min_le_init (l : List Nat) (f : Nat → Int) :
    ∀ a : Int, l.foldl (fun mn i => min mn (f i)) a ≤ a := by
  induction l with
  | nil => intro a; exact le_refl a
  | cons x xs ih =>
      intro a
      simp only [List.foldl_cons]
      exact le_trans (ih _) (min_le_left _ _)

theorem foldl_min_le_mem (l : List Nat) (f : Nat → Int) :
    ∀ (a : Int) (d : Nat), d ∈ l → l.foldl (fun mn i => min mn (f i)) a ≤ f d := by
  induction l with
  | nil => intro a d hd; simp at hd
  | cons x xs ih =>
      intro a d hd
      simp only [List.foldl_cons]
      rcases List.mem_cons.mp hd with h1 | h1
      · subst h1
        exact le_trans (foldl_min_le_init xs f _) (min_le_right _ _)
      · exact ih _ _ h1

theorem foldl_min_mem (l : List Nat) (f : Nat → Int) :
    ∀ a : Int, l.foldl (fun mn i => min mn (f i)) a = a ∨
      ∃ d ∈ l, l.foldl (fun mn i => min mn (f i)) a = f d := by
  induction l with
  | nil => intro a; exact Or.inl rfl
  | cons x xs ih =>
      intro a
      simp only [List.foldl_cons]
      rcases ih (min a (f x)) with h1 | ⟨d, hd, h1⟩
      · rcases min_cases a (f x) with ⟨he, -⟩ | ⟨he, -⟩
        · exact Or.inl (h1.trans he)
        · exact Or.inr ⟨x, List.mem_cons_self _ _, h1.trans he⟩
      · exact Or.inr ⟨d, List.mem_cons_of_mem _ hd, h1⟩

theorem klook_isSome_of_mem {β : Type} {m : List (LocalVariable × β)}
    {p : LocalVariable × β} (hp : p ∈ m) : (klook m p.1).isSome := by
  induction m with
  | nil => simp at hp
  | cons kv rest ih =>
      obtain ⟨k1, v1⟩ := kv
      rw [klook_cons]
      by_cases h : k1 = p.1
      · rw [if_pos h]
        rfl
      · rw [if_neg h]
        rcases List.mem_cons.mp hp with h1 | h1
        · exact absurd (congrArg Prod.fst h1.symm) h
        · exact ih h1

theorem klook_loop_at_key (cfg : CFG) (es : List (LocalVariable × List Nat))
    (x : LocalVariable) (ds : List Nat)
    (hnd : (es.map (fun p => p.1)).Nodup) (hmem : (x, ds) ∈ es)
    (ml : List (LocalVariable × Int)) :
    klook (es.foldl (fun ml p => bumpMin cfg ml p.1 p.2) ml) x =
      some (ds.foldl (fun mn i => min mn (outerLoopsOf cfg i))
        ((klook ml x).getD INT_MAX)) := by
  obtain ⟨es1, es2, heq⟩ := List.append_of_mem hmem
  subst heq
  rw [List.map_append, List.map_cons] at hnd
  have hsplit := List.nodup_append.mp hnd
  have hx1 : ∀ p ∈ es1, p.1 ≠ x := by
    intro p hp he
    exact hsplit.2.2 (List.mem_map.mpr ⟨p, hp, he⟩) (List.mem_cons_self _ _)
  have hx2 : ∀ p ∈ es2, p.1 ≠ x := by
    intro p hp he
    exact (List.nodup_cons.mp hsplit.2.1).1 (List.mem_map.mpr ⟨p, hp, he⟩)
  rw [List.foldl_append]
  simp only [List.foldl_cons]
  rw [klook_fold_bumpMin_ne cfg es2 x hx2]
  show klook (bumpMin cfg (es1.foldl (fun ml p => bumpMin cfg ml p.1 p.2) ml) x ds) x = _
  rw [klook_bumpMin_self, klook_fold_bumpMin_ne cfg es1 x hx1]

/-- C2 (amended).  In computeMinMaxLoops, for every variable x with a
non-empty set of reading blocks, the final `minLoops[x]` is the minimum
outerLoops over x's reading AND writing blocks together: the writes pass
only refuses to overwrite at the insertion, but its min-fold does lower a
read-derived minimum when x is written at a shallower loop depth. -/
theorem c2_minLoops_is_min_over_reads_and_writes (rw : ReadsAndWrites) (cfg : CFG)
    (x : LocalVariable) (rbs : List Nat)
    (hrk : (rw.reads.map (fun p => p.1)).Nodup)
    (hwk : (rw.writes.map (fun p => p.1)).Nodup)
    (hx : (x, rbs) ∈ rw.reads) (hrne : rbs ≠ [])
    (hml : cfg.minLoops = [])
    (hbound : ∀ i ∈ rbs ++ (klook rw.writes x).getD [],
      outerLoopsOf cfg i < INT_MAX) :
    ∃ m : Int, klook (computeMinMaxLoops rw cfg).minLoops x = some m ∧
      m ∈ (rbs ++ (klook rw.writes x).getD []).map (outerLoopsOf cfg) ∧
      ∀ d ∈ (rbs ++ (klook rw.writes x).getD []).map (outerLoopsOf cfg), m ≤ d := by
  have h1 : klook (rw.reads.foldl (fun ml p => bumpMin cfg ml p.1 p.2) cfg.minLoops) x =
      some (rbs.foldl (fun mn i => min mn (outerLoopsOf cfg i)) INT_MAX) := by
    rw [klook_loop_at_key cfg rw.reads x rbs hrk hx cfg.minLoops, hml]
    rfl
  have hfinal : klook (computeMinMaxLoops rw cfg).minLoops x =
      some (((rbs ++ (klook rw.writes x).getD []).foldl
        (fun mn i => min mn (outerLoopsOf cfg i)) INT_MAX)) := by
    show klook (rw.writes.foldl (fun ml p => bumpMin cfg ml p.1 p.2)
      (rw.reads.foldl (fun ml p => bumpMin cfg ml p.1 p.2) cfg.minLoops)) x = _
    cases hw : klook rw.writes x with
    | none =>
        have hnk : ∀ p ∈ rw.writes, p.1 ≠ x := by
          intro p hp he
          have := klook_isSome_of_mem hp
          rw [he, hw] at this
          exact absurd this (by simp)
        rw [klook_fold_bumpMin_ne cfg rw.writes x hnk, h1]
        simp
    | some wbs =>
        have hmemw : (x, wbs) ∈ rw.writes := klook_mem hw
        rw [klook_loop_at_key cfg rw.writes x wbs hwk hmemw, h1]
        simp only [Option.getD_some]
        rw [List.foldl_append]
  refine ⟨_, hfinal, ?_, ?_⟩
  · rcases foldl_min_mem (rbs ++ (klook rw.writes x).getD []) (outerLoopsOf cfg)
        INT_MAX with hcase | ⟨d, hd, hcase⟩
    · exfalso
      obtain ⟨d0, hd0⟩ := List.exists_mem_of_ne_nil rbs hrne
      have hle := foldl_min_le_mem (rbs ++ (klook rw.writes x).getD [])
        (outerLoopsOf cfg) INT_MAX d0 (List.mem_append_left _ hd0)
      rw [hcase] at hle
      have := hbound d0 (List.mem_append_left _ hd0)
      omega
    · rw [hcase]
      exact List.mem_map.mpr ⟨d, hd, rfl⟩
  · intro d hd
    obtain ⟨i, hi, hieq⟩ := List.mem_map.mp hd
    rw [← hieq]
    exact foldl_min_le_mem _ _ _ _ hi

/-- Witness for the amended C2 at the concrete counterexample data. -/
theorem c2_minLoops_witness :
    ∃ m : Int, klook (computeMinMaxLoops exRW2 exCFG2).minLoops (lvar 30) = some m ∧
      m ∈ ([2] ++ (klook exRW2.writes (lvar 30)).getD []).map (outerLoopsOf exCFG2) ∧
      ∀ d ∈ ([2] ++ (klook exRW2.writes (lvar 30)).getD []).map (outerLoopsOf exCFG2),
        m ≤ d := by
  refine c2_minLoops_is_min_over_reads_and_writes exRW2 exCFG2 (lvar 30) [2]
    (by decide) (by decide) (by decide) (by decide) rfl ?_
  intro i hi
  fin_cases hi <;> decide

/-! ### Block-argument inference (`fillInBlockArguments`, C6) and its
interaction with `removeDeadAssigns` (C9) -/

/-- `unordered_set<LocalVariable>::insert`, on a duplicate-free list. -/
def insVar (l : List LocalVariable) (v : LocalVariable) : List LocalVariable :=
  if v ∈ l then l else l ++ [v]

/-- Insert a whole set. -/
def insAll (l : List LocalVariable) (xs : List LocalVariable) : List LocalVariable :=
  xs.foldl insVar l

/-- First-match lookup with `Nat` keys. -/
def nlook {β : Type} (m : List (Nat × β)) (k : Nat) : Option β :=
  match m with
  | [] => none
  | (k', v) :: rest => if k' = k then some v else nlook rest k

/-- Overwrite-or-insert with `Nat` keys. -/
def upsertN {β : Type} (m : List (Nat × β)) (k : Nat) (v : β) : List (Nat × β) :=
  (k, v) :: m.filter (fun kv => kv.1 ≠ k)

/-- Overwrite the value of the first entry with the given key, in place
(mutation through an `unordered_map` reference keeps iteration order). -/
def updVal {β : Type} (m : List (LocalVariable × β)) (k : LocalVariable) (v : β) :
    List (LocalVariable × β) :=
  match m with
  | [] => []
  | (k', v') :: rest => if k' = k then (k', v) :: rest else (k', v') :: updVal rest k v

/-- `reads_by_block[i].insert(v)` on a vector of variable sets indexed by
block id (absent entries read as the default empty set). -/
def tAdd (t : List (Nat × List LocalVariable)) (i : Nat) (v : LocalVariable) :
    List (Nat × List LocalVariable) :=
  upsertN t i (insVar ((nlook t i).getD []) v)

/-- The first preprocessing loop of `fillInBlockArguments` (over `reads`):
`RnW.writes[rds.first]` default-inserts a writes entry; a variable read and
written in exactly one common block has both sets cleared; a variable with
no writes has its reads cleared. -/
def preprocess1Step (acc : ReadsAndWrites) (rds : LocalVariable × List Nat) :
    ReadsAndWrites :=
  match klook acc.writes rds.1 with
  | some w =>
      if ((klook acc.reads rds.1).getD []).length = 1 ∧ w.length = 1 ∧
          ((klook acc.reads rds.1).getD []).headD 0 = w.headD 0 then
        { reads := updVal acc.reads rds.1 [], writes := updVal acc.writes rds.1 [] }
      else if w = [] then
        { reads := updVal acc.reads rds.1 [], writes := acc.writes }
      else acc
  | none =>
      { reads := updVal acc.reads rds.1 [], writes := acc.writes ++ [(rds.1, [])] }

/-- The whole first preprocessing loop. -/
def preprocess1 (rw : ReadsAndWrites) : ReadsAndWrites :=
  rw.reads.foldl preprocess1Step rw

/-- The state of the second preprocessing loop: the two tables plus the
per-block `reads_by_block` / `writes_by_block` scratch sets. -/
structure Prep2 where
  reads : List (LocalVariable × List Nat)
  writes : List (LocalVariable × List Nat)
  rb : List (Nat × List LocalVariable)
  wb : List (Nat × List LocalVariable)
deriving DecidableEq, Repr

/-- One entry of the second preprocessing loop (over `writes`):
`RnW.reads[wts.first]` default-inserts a reads entry; a variable with empty
reads has its writes cleared; then the per-block tables are filled. -/
def preprocess2Step (acc : Prep2) (entry : LocalVariable × List Nat) : Prep2 :=
  match klook acc.reads entry.1 with
  | some r =>
      if r = [] then
        { acc with writes := updVal acc.writes entry.1 [] }
      else
        { acc with
          rb := r.foldl (fun t bb => tAdd t bb entry.1) acc.rb
          wb := ((klook acc.writes entry.1).getD []).foldl
                  (fun t bb => tAdd t bb entry.1) acc.wb }
  | none =>
      { acc with
        reads := acc.reads ++ [(entry.1, [])]
        writes := updVal acc.writes entry.1 [] }

/-- The whole second preprocessing loop. -/
def preprocess2 (rw1 : ReadsAndWrites) : Prep2 :=
  rw1.writes.foldl preprocess2Step ⟨rw1.reads, rw1.writes, [], []⟩

/-- Both preprocessing loops, leaving the mutated ReadsAndWrites object. -/
def preprocessRnW (rw : ReadsAndWrites) : Prep2 :=
  preprocess2 (preprocess1 rw)

/-- One forward pass of the UB1 fixpoint: in `forwardsTopoSort` order,
grow each block's set with its reads and its non-dead successors' sets;
the Boolean records whether any set grew (`size() != sz`). -/
def ub1Pass (cfg : CFG) (rb : List (Nat × List LocalVariable))
    (t0 : List (Nat × List LocalVariable)) : List (Nat × List LocalVariable) × Bool :=
  cfg.forwardsTopoSort.foldl (fun acc bid =>
    match getBlock cfg bid with
    | none => acc
    | some bb =>
        let cur := (nlook acc.1 bid).getD []
        let sz := cur.length
        let cur1 := insAll cur ((nlook rb bid).getD [])
        let cur2 := if bb.bexit.thenb ≠ cfg.deadId then
            insAll cur1 ((nlook acc.1 bb.bexit.thenb).getD []) else cur1
        let cur3 := if bb.bexit.elseb ≠ cfg.deadId then
            insAll cur2 ((nlook acc.1 bb.bexit.elseb).getD []) else cur2
        (upsertN acc.1 bid cur3, acc.2 || decide (cur3.length ≠ sz))) (t0, false)

/-- One backward pass of the UB2 fixpoint: in `backwardsTopoSort` order,
grow each block's set with its writes and its non-dead predecessors'
sets. -/
def ub2Pass (cfg : CFG) (wb : List (Nat × List LocalVariable))
    (t0 : List (Nat × List LocalVariable)) : List (Nat × List LocalVariable) × Bool :=
  cfg.backwardsTopoSort.foldl (fun acc bid =>
    match getBlock cfg bid with
    | none => acc
    | some bb =>
        let cur := (nlook acc.1 bid).getD []
        let sz := cur.length
        let cur1 := insAll cur ((nlook wb bid).getD [])
        let cur2 := bb.backEdges.foldl (fun c e =>
          if e ≠ cfg.deadId then insAll c ((nlook acc.1 e).getD []) else c) cur1
        (upsertN acc.1 bid cur2, acc.2 || decide (cur2.length ≠ sz))) (t0, false)

/-- The `while (changed)` driver of a UB fixpoint: rerun the pass until it
reports no growth; `none` = the fuel ran out first. -/
def ubLoop (pass : List (Nat × List LocalVariable) → List (Nat × List LocalVariable) × Bool) :
    Nat → List (Nat × List LocalVariable) → Option (List (Nat × List LocalVariable))
  | 0, _ => none
  | fuel + 1, t =>
      let r := pass t
      if r.2 then ubLoop pass fuel r.1 else some r.1

/-- The ordering used by the final `sort` of the args vector
(`a.name._id < b.name._id` comparator; sortedness is w.r.t. `≤`). -/
def argOrder (a b : LocalVariable) : Prop := a.nameId ≤ b.nameId

instance : DecidableRel argOrder := fun a b => Nat.decLe a.nameId b.nameId

instance : IsTotal LocalVariable argOrder := ⟨fun a b => Nat.le_total a.nameId b.nameId⟩

instance : IsTrans LocalVariable argOrder := ⟨fun _ _ _ h1 h2 => Nat.le_trans h1 h2⟩

/-- The combine step for one block: push every member of `upper_bounds1`
that also lies in `upper_bounds2`, then sort by name id. -/
def combineBlock (ub1 ub2 : List (Nat × List LocalVariable)) (bb : BasicBlock) :
    BasicBlock :=
  { bb with args := List.insertionSort argOrder
              (bb.args ++ ((nlook ub1 bb.id).getD []).filter
                (fun v => v ∈ (nlook ub2 bb.id).getD [])) }

/-- Preprocessing plus the two fixpoints (`none` = a fixpoint loop ran out
of fuel before quiescing). -/
def fillInTables (cfg : CFG) (rw : ReadsAndWrites) (fuel1 fuel2 : Nat) :
    Option (Prep2 × List (Nat × List LocalVariable) × List (Nat × List LocalVariable)) :=
  let p := preprocessRnW rw
  match ubLoop (ub1Pass cfg p.rb) fuel1 [] with
  | none => none
  | some ub1 =>
      match ubLoop (ub2Pass cfg p.wb) fuel2 [] with
      | none => none
      | some ub2 => some (p, ub1, ub2)

/-- `CFGBuilder::fillInBlockArguments`. -/
def fillInBlockArguments (cfg : CFG) (rw : ReadsAndWrites) (fuel1 fuel2 : Nat) :
    Option (CFG × ReadsAndWrites) :=
  match fillInTables cfg rw fuel1 fuel2 with
  | none => none
  | some (p, ub1, ub2) =>
      some ({ cfg with basicBlocks := cfg.basicBlocks.map (combineBlock ub1 ub2) },
        { reads := p.reads, writes := p.writes })

/-! ### `removeDeadAssigns` (C9) -/

/-- The explicit instruction-kind list of `removeDeadAssigns`
(the comment says it amounts to `!New && !Send && !Return`). -/
def isPureInstr : Instruction → Bool
  | .ident _ => true
  | .arraySplat _ => true
  | .hashSplat _ => true
  | .boolLit _ => true
  | .stringLit _ => true
  | .symbolLit _ => true
  | .intLit _ => true
  | .floatLit _ => true
  | .self => true
  | .loadArg _ => true
  | .send _ _ _ => false
  | .ret _ => false
  | .newObject _ => false

/-- A binding survives `removeDeadAssigns` iff its target aliases a global,
or its target occurs as a key of `reads` (`RnW.reads.find(bind.bind)`
succeeds, regardless of the stored set), or its value is impure. -/
def keepBinding (reads : List (LocalVariable × List Nat)) (b : Binding) : Bool :=
  b.bind.aliasGlobal || (klook reads b.bind).isSome || !(isPureInstr b.value)

/-- `CFGBuilder::removeDeadAssigns`. -/
def removeDeadAssigns (reads : List (LocalVariable × List Nat)) (cfg : CFG) : CFG :=
  { cfg with basicBlocks := cfg.basicBlocks.map
               (fun bb => { bb with exprs := bb.exprs.filter (keepBinding reads) }) }

/-! Key-presence lemmas used by C9: every key of `writes` ends up as a key
of `reads` after the two preprocessing loops. -/

theorem klook_append_isSome {β : Type} {m : List (LocalVariable × β)}
    (m2 : List (LocalVariable × β)) {k : LocalVariable}
    (h : (klook m k).isSome) : (klook (m ++ m2) k).isSome := by
  induction m with
  | nil => simp [klook] at h
  | cons kv rest ih =>
      obtain ⟨k', v⟩ := kv
      rw [List.cons_append, klook_cons]
      rw [klook_cons] at h
      split at h
      · rename_i hk
        rw [if_pos hk]
        rfl
      · rename_i hk
        rw [if_neg hk]
        exact ih h

theorem klook_append_right {β : Type} {m : List (LocalVariable × β)}
    (m2 : List (LocalVariable × β)) {k : LocalVariable}
    (h : klook m k = none) : klook (m ++ m2) k = klook m2 k := by
  induction m with
  | nil => rfl
  | cons kv rest ih =>
      obtain ⟨k', v⟩ := kv
      rw [klook_cons] at h
      split at h
      · exact absurd h Option.noConfusion
      · rename_i hk
        rw [List.cons_append, klook_cons, if_neg hk]
        exact ih h

theorem klook_updVal_isSome {β : Type} (m : List (LocalVariable × β))
    (k0 k : LocalVariable) (v : β) :
    (klook (updVal m k0 v) k).isSome = (klook m k).isSome := by
  induction m with
  | nil => rfl
  | cons kv rest ih =>
      obtain ⟨k', v'⟩ := kv
      by_cases hk0 : k' = k0
      · rw [updVal, if_pos hk0, klook_cons, klook_cons]
        by_cases hk : k' = k
        · rw [if_pos hk, if_pos hk]
          rfl
        · rw [if_neg hk, if_neg hk]
      · rw [updVal, if_neg hk0, klook_cons, klook_cons]
        by_cases hk : k' = k
        · rw [if_pos hk, if_pos hk]
        · rw [if_neg hk, if_neg hk]
          exact ih

theorem writesKeys_preprocess1Step {acc : ReadsAndWrites}
    (rds : LocalVariable × List Nat) {v : LocalVariable}
    (h : (klook acc.writes v).isSome) :
    (klook (preprocess1Step acc rds).writes v).isSome := by
  unfold preprocess1Step
  split
  · split
    · exact (klook_updVal_isSome acc.writes rds.1 v []).trans h
    · split
      · exact h
      · exact h
  · exact klook_append_isSome _ h

theorem writesKeys_preprocess1 (rw : ReadsAndWrites) (v : LocalVariable)
    (h : (klook rw.writes v).isSome) :
    (klook (preprocess1 rw).writes v).isSome := by
  unfold preprocess1
  generalize rw.reads = es
  induction es generalizing rw with
  | nil => exact h
  | cons e rest ih =>
      rw [List.foldl_cons]
      exact ih (preprocess1Step rw e) (writesKeys_preprocess1Step e h)

theorem readsKeys_preprocess2Step_mono {acc : Prep2}
    (e : LocalVariable × List Nat) {v : LocalVariable}
    (h : (klook acc.reads v).isSome) :
    (klook (preprocess2Step acc e).reads v).isSome := by
  unfold preprocess2Step
  split
  · split
    · exact h
    · exact h
  · exact klook_append_isSome _ h

theorem readsKeys_preprocess2Step_self (acc : Prep2) (e : LocalVariable × List Nat) :
    (klook (preprocess2Step acc e).reads e.1).isSome := by
  unfold preprocess2Step
  split
  · rename_i r hk
    split
    · show (klook acc.reads e.1).isSome
      rw [hk]
      rfl
    · show (klook acc.reads e.1).isSome
      rw [hk]
      rfl
  · rename_i hk
    show (klook (acc.reads ++ [(e.1, [])]) e.1).isSome
    rw [klook_append_right _ hk, klook_cons, if_pos rfl]
    rfl

theorem readsKeys_fold2_mono (es : List (LocalVariable × List Nat)) (acc : Prep2)
    (v : LocalVariable) (h : (klook acc.reads v).isSome) :
    (klook (es.foldl preprocess2Step acc).reads v).isSome := by
  induction es generalizing acc with
  | nil => exact h
  | cons e rest ih =>
      rw [List.foldl_cons]
      exact ih _ (readsKeys_preprocess2Step_mono e h)

theorem readsKeys_fold2 (es : List (LocalVariable × List Nat)) (acc : Prep2) :
    ∀ p ∈ es, (klook (es.foldl preprocess2Step acc).reads p.1).isSome := by
  induction es generalizing acc with
  | nil => intro p hp; exact absurd hp (List.not_mem_nil p)
  | cons e rest ih =>
      intro p hp
      rw [List.foldl_cons]
      rcases List.mem_cons.mp hp with hpe | hpr
      · subst hpe
        exact readsKeys_fold2_mono rest _ p.1 (readsKeys_preprocess2Step_self acc p)
      · exact ih _ p hpr

/-- A variable read and written only in block `0`: preprocessing clears both
sets but keeps both keys. -/
def vx9 : LocalVariable := lvar 7

/-- The pure binding `vx9 = 1` sitting in block `0`. -/
def bC9 : Binding := ⟨vx9, Instruction.intLit 1⟩

/-- Block `0` of the C9 example. -/
def b0C9 : BasicBlock := mkBlock 0 [bC9] none 1 1 [] 0

/-- The C9 example graph: entry `0` jumping to the dead block `1`. -/
def exC9 : CFG := ⟨[b0C9, mkBlock 1 [] none 1 1 [] 0], 0, 1, [0], [0], [], []⟩

/-- The C9 example tables: `vx9` is read and written exactly in block `0`. -/
def exRW9 : ReadsAndWrites := ⟨[(vx9, [0])], [(vx9, [0])]⟩

/-- **C9.** `removeDeadAssigns` keeps every binding whose target is present
as a key of `reads` — even a key mapped to an empty set of reading blocks —
and the `fillInBlockArguments` preprocessing default-inserts a `reads` key
for every key of `writes` (`RnW.reads[wts.first]`).  Hence a pure binding
whose read set was cleared during preprocessing is not removed by a
subsequent `removeDeadAssigns` on the same `ReadsAndWrites` object. -/
theorem c9_reads_key_blocks_removal :
    (∀ (rw : ReadsAndWrites) (v : LocalVariable),
        (klook rw.writes v).isSome → (klook (preprocessRnW rw).reads v).isSome) ∧
    (∀ (reads : List (LocalVariable × List Nat)) (cfg : CFG) (bb : BasicBlock)
        (b : Binding), bb ∈ cfg.basicBlocks → b ∈ bb.exprs →
        (klook reads b.bind).isSome →
        ∃ bb', bb' ∈ (removeDeadAssigns reads cfg).basicBlocks ∧ bb'.id = bb.id ∧
          b ∈ bb'.exprs) := by
  constructor
  · intro rw v h
    have h1 := writesKeys_preprocess1 rw v h
    obtain ⟨w, hw⟩ := Option.isSome_iff_exists.mp h1
    exact readsKeys_fold2 _ _ (v, w) (klook_mem hw)
  · intro reads cfg bb b hbb hb hkey
    refine ⟨{ bb with exprs := bb.exprs.filter (keepBinding reads) }, ?_, rfl, ?_⟩
    · exact List.mem_map_of_mem _ hbb
    · show b ∈ bb.exprs.filter (keepBinding reads)
      rw [List.mem_filter]
      exact ⟨hb, by simp [keepBinding, hkey]⟩

/-- C9 at the concrete example: after preprocessing, `vx9` still keys an
(empty) `reads` entry, and the pure binding `vx9 = 1` survives
`removeDeadAssigns`. -/
theorem c9_reads_key_blocks_removal_witness :
    (klook (preprocessRnW exRW9).reads vx9).isSome ∧
    ∃ bb', bb' ∈ (removeDeadAssigns (preprocessRnW exRW9).reads exC9).basicBlocks ∧
      bb'.id = b0C9.id ∧ bC9 ∈ bb'.exprs := by
  refine ⟨c9_reads_key_blocks_removal.1 exRW9 vx9 (by decide), ?_⟩
  exact c9_reads_key_blocks_removal.2 (preprocessRnW exRW9).reads exC9 b0C9 bC9
    (by decide) (by decide) (by decide)

/-! ### C6: lemmas about the upper-bound tables -/

theorem insVar_nodup {l : List LocalVariable} (v : LocalVariable)
    (h : l.Nodup) : (insVar l v).Nodup := by
  unfold insVar
  split
  · exact h
  · rename_i hv
    rw [List.nodup_append]
    exact ⟨h, List.nodup_singleton v, by
      intro a ha hav
      rw [List.mem_singleton] at hav
      exact hv (hav ▸ ha)⟩

theorem mem_insVar {l : List LocalVariable} {v a : LocalVariable} :
    a ∈ insVar l v ↔ a ∈ l ∨ a = v := by
  unfold insVar
  split
  · rename_i hv
    constructor
    · exact Or.inl
    · rintro (h | rfl)
      · exact h
      · exact hv
  · rw [List.mem_append, List.mem_singleton]

theorem insAll_nodup {l : List LocalVariable} (xs : List LocalVariable)
    (h : l.Nodup) : (insAll l xs).Nodup := by
  induction xs generalizing l with
  | nil => exact h
  | cons x rest ih => exact ih (insVar_nodup x h)

theorem nlook_cons {β : Type} (k1 : Nat) (v1 : β) (rest : List (Nat × β))
    (k : Nat) :
    nlook ((k1, v1) :: rest) k = if k1 = k then some v1 else nlook rest k := rfl

theorem nlook_filter_keyne {β : Type} {m : List (Nat × β)} {k k' : Nat}
    (h : k' ≠ k) :
    nlook (m.filter (fun kv => kv.1 ≠ k)) k' = nlook m k' := by
  induction m with
  | nil => rfl
  | cons kv rest ih =>
      obtain ⟨k1, v1⟩ := kv
      by_cases hk1 : k1 = k
      · rw [List.filter_cons_of_neg (by simp [hk1]), nlook_cons, if_neg (by omega)]
        exact ih
      · rw [List.filter_cons_of_pos (by simp [hk1]), nlook_cons, nlook_cons]
        by_cases hk1' : k1 = k'
        · rw [if_pos hk1', if_pos hk1']
        · rw [if_neg hk1', if_neg hk1']
          exact ih

theorem nlook_upsertN_self {β : Type} (m : List (Nat × β)) (k : Nat) (v : β) :
    nlook (upsertN m k v) k = some v := by
  rw [upsertN, nlook_cons, if_pos rfl]

theorem nlook_upsertN_ne {β : Type} (m : List (Nat × β)) {k k' : Nat} (v : β)
    (h : k' ≠ k) : nlook (upsertN m k v) k' = nlook m k' := by
  rw [upsertN, nlook_cons, if_neg (by omega)]
  exact nlook_filter_keyne h

/-- All stored block sets are duplicate free. -/
def TblNodup (t : List (Nat × List LocalVariable)) : Prop :=
  ∀ i : Nat, ((nlook t i).getD []).Nodup

theorem tblNodup_nil : TblNodup [] := fun _ => List.nodup_nil

theorem tblNodup_upsertN {t : List (Nat × List LocalVariable)} {k : Nat}
    {l : List LocalVariable} (ht : TblNodup t) (hl : l.Nodup) :
    TblNodup (upsertN t k l) := by
  intro i
  by_cases hik : i = k
  · rw [hik, nlook_upsertN_self]
    exact hl
  · rw [nlook_upsertN_ne _ _ hik]
    exact ht i

theorem ub1Pass_tblNodup (cfg : CFG) (rb : List (Nat × List LocalVariable))
    (t0 : List (Nat × List LocalVariable)) (h : TblNodup t0) :
    TblNodup (ub1Pass cfg rb t0).1 := by
  unfold ub1Pass
  generalize cfg.forwardsTopoSort = l
  have main : ∀ (l' : List Nat) (acc : List (Nat × List LocalVariable) × Bool),
      TblNodup acc.1 → TblNodup (l'.foldl (fun acc bid =>
        match getBlock cfg bid with
        | none => acc
        | some bb =>
            let cur := (nlook acc.1 bid).getD []
            let sz := cur.length
            let cur1 := insAll cur ((nlook rb bid).getD [])
            let cur2 := if bb.bexit.thenb ≠ cfg.deadId then
                insAll cur1 ((nlook acc.1 bb.bexit.thenb).getD []) else cur1
            let cur3 := if bb.bexit.elseb ≠ cfg.deadId then
                insAll cur2 ((nlook acc.1 bb.bexit.elseb).getD []) else cur2
            (upsertN acc.1 bid cur3, acc.2 || decide (cur3.length ≠ sz))) acc).1 := by
    intro l'
    induction l' with
    | nil => intro acc ha; exact ha
    | cons bid rest ih =>
        intro acc ha
        rw [List.foldl_cons]
        apply ih
        cases hg : getBlock cfg bid with
        | none =>
            simp only [hg]
            exact ha
        | some bb =>
            simp only [hg]
            apply tblNodup_upsertN ha
            split
            · apply insAll_nodup
              split
              · exact insAll_nodup _ (insAll_nodup _ (ha bid))
              · exact insAll_nodup _ (ha bid)
            · split
              · exact insAll_nodup _ (insAll_nodup _ (ha bid))
              · exact insAll_nodup _ (ha bid)
  exact main l (t0, false) h

theorem ub2Pass_tblNodup (cfg : CFG) (wb : List (Nat × List LocalVariable))
    (t0 : List (Nat × List LocalVariable)) (h : TblNodup t0) :
    TblNodup (ub2Pass cfg wb t0).1 := by
  unfold ub2Pass
  generalize cfg.backwardsTopoSort = l
  have main : ∀ (l' : List Nat) (acc : List (Nat × List LocalVariable) × Bool),
      TblNodup acc.1 → TblNodup (l'.foldl (fun acc bid =>
        match getBlock cfg bid with
        | none => acc
        | some bb =>
            let cur := (nlook acc.1 bid).getD []
            let sz := cur.length
            let cur1 := insAll cur ((nlook wb bid).getD [])
            let cur2 := bb.backEdges.foldl (fun c e =>
              if e ≠ cfg.deadId then insAll c ((nlook acc.1 e).getD []) else c) cur1
            (upsertN acc.1 bid cur2, acc.2 || decide (cur2.length ≠ sz))) acc).1 := by
    intro l'
    induction l' with
    | nil => intro acc ha; exact ha
    | cons bid rest ih =>
        intro acc ha
        rw [List.foldl_cons]
        apply ih
        cases hg : getBlock cfg bid with
        | none =>
            simp only [hg]
            exact ha
        | some bb =>
            simp only [hg]
            apply tblNodup_upsertN ha
            have inner : ∀ (es : List Nat) (c : List LocalVariable), c.Nodup →
                (es.foldl (fun c e =>
                  if e ≠ cfg.deadId then insAll c ((nlook acc.1 e).getD []) else c) c).Nodup := by
              intro es
              induction es with
              | nil => intro c hc; exact hc
              | cons e rest2 ih2 =>
                  intro c hc
                  rw [List.foldl_cons]
                  apply ih2
                  split
                  · exact insAll_nodup _ hc
                  · exact hc
            exact inner _ _ (insAll_nodup _ (ha bid))
  exact main l (t0, false) h

theorem ubLoop_tblNodup
    (pass : List (Nat × List LocalVariable) → List (Nat × List LocalVariable) × Bool)
    (hp : ∀ t, TblNodup t → TblNodup (pass t).1) :
    ∀ (fuel : Nat) (t t' : List (Nat × List LocalVariable)),
      TblNodup t → ubLoop pass fuel t = some t' → TblNodup t' := by
  intro fuel
  induction fuel with
  | zero => intro t t' _ h; exact absurd h Option.noConfusion
  | succ n ih =>
      intro t t' ht h
      rw [ubLoop] at h
      split at h
      · exact ih _ _ (hp t ht) h
      · cases h
        exact hp t ht

/-- **C6.** After `fillInBlockArguments`, every block's `args` is exactly
the intersection of the two fixpoint upper bounds at that block (membership
iff membership in both `upper_bounds1[id]` and `upper_bounds2[id]`), sorted
ascending by the variable's name id and duplicate free, provided the input
blocks start with empty `args` and both `while (changed)` fixpoints quiesce
(the fuelled loops return `some`). -/
theorem c6_args_sorted_intersection (cfg : CFG) (rw : ReadsAndWrites)
    (f1 f2 : Nat) (p : Prep2) (ub1 ub2 : List (Nat × List LocalVariable))
    (ht : fillInTables cfg rw f1 f2 = some (p, ub1, ub2))
    (hargs : ∀ bb ∈ cfg.basicBlocks, bb.args = []) :
    fillInBlockArguments cfg rw f1 f2 =
      some ({ cfg with basicBlocks := cfg.basicBlocks.map (combineBlock ub1 ub2) },
        ⟨p.reads, p.writes⟩) ∧
    ∀ bb ∈ cfg.basicBlocks,
      (∀ v, v ∈ (combineBlock ub1 ub2 bb).args ↔
          v ∈ (nlook ub1 bb.id).getD [] ∧ v ∈ (nlook ub2 bb.id).getD []) ∧
      List.Sorted argOrder (combineBlock ub1 ub2 bb).args ∧
      (combineBlock ub1 ub2 bb).args.Nodup := by
  have hnd1 : TblNodup ub1 := by
    simp only [fillInTables] at ht
    cases hu1 : ubLoop (ub1Pass cfg (preprocessRnW rw).rb) f1 [] with
    | none =>
        rw [hu1] at ht
        exact absurd ht Option.noConfusion
    | some u1 =>
        rw [hu1] at ht
        cases hu2 : ubLoop (ub2Pass cfg (preprocessRnW rw).wb) f2 [] with
        | none =>
            rw [hu2] at ht
            exact absurd ht Option.noConfusion
        | some u2 =>
            rw [hu2] at ht
            injection ht with ht'
            injection ht' with h1 h2
            injection h2 with h2a h2b
            subst h2a
            exact ubLoop_tblNodup _ (fun t ht0 => ub1Pass_tblNodup cfg _ t ht0)
              f1 [] u1 tblNodup_nil hu1
  constructor
  · unfold fillInBlockArguments
    rw [ht]
  · intro bb hbb
    have he : (combineBlock ub1 ub2 bb).args
        = List.insertionSort argOrder (((nlook ub1 bb.id).getD []).filter
            (fun v => decide (v ∈ (nlook ub2 bb.id).getD []))) := by
      show List.insertionSort argOrder
          (bb.args ++ ((nlook ub1 bb.id).getD []).filter
            (fun v => decide (v ∈ (nlook ub2 bb.id).getD []))) = _
      rw [hargs bb hbb, List.nil_append]
    refine ⟨?_, ?_, ?_⟩
    · intro v
      rw [he, (List.perm_insertionSort argOrder _).mem_iff, List.mem_filter]
      simp only [decide_eq_true_eq]
    · rw [he]
      exact List.sorted_insertionSort argOrder _
    · rw [he, (List.perm_insertionSort argOrder _).nodup_iff]
      exact (hnd1 bb.id).filter _

/-- The variable of the C6 example. -/
def xC6 : LocalVariable := lvar 5

/-- The C6 example graph: the straight line `0 → 1 → 2 → dead 3`. -/
def exC6 : CFG := ⟨[mkBlock 0 [] none 1 1 [] 0,
  mkBlock 1 [] none 2 2 [0] 0,
  mkBlock 2 [] none 3 3 [1] 0,
  mkBlock 3 [] none 3 3 [2] 0], 0, 3, [2, 1, 0], [0, 1, 2], [], []⟩

/-- The C6 example tables: `xC6` written in block `0`, read in block `2`. -/
def exRW6 : ReadsAndWrites := ⟨[(xC6, [2])], [(xC6, [0])]⟩

/-- The preprocessing state the C6 example produces. -/
def pC6 : Prep2 := ⟨[(xC6, [2])], [(xC6, [0])], [(2, [xC6])], [(0, [xC6])]⟩

/-- The forward upper bound the C6 example produces. -/
def ub1C6 : List (Nat × List LocalVariable) := [(0, [xC6]), (1, [xC6]), (2, [xC6])]

/-- The backward upper bound the C6 example produces. -/
def ub2C6 : List (Nat × List LocalVariable) := [(2, [xC6]), (1, [xC6]), (0, [xC6])]

/-- C6 at the concrete example. -/
theorem c6_args_sorted_intersection_witness :
    fillInBlockArguments exC6 exRW6 3 3 =
      some ({ exC6 with basicBlocks := exC6.basicBlocks.map (combineBlock ub1C6 ub2C6) },
        ⟨pC6.reads, pC6.writes⟩) ∧
    ∀ bb ∈ exC6.basicBlocks,
      (∀ v, v ∈ (combineBlock ub1C6 ub2C6 bb).args ↔
          v ∈ (nlook ub1C6 bb.id).getD [] ∧ v ∈ (nlook ub2C6 bb.id).getD []) ∧
      List.Sorted argOrder (combineBlock ub1C6 ub2C6 bb).args ∧
      (combineBlock ub1C6 ub2C6 bb).args.Nodup :=
  c6_args_sorted_intersection exC6 exRW6 3 3 pC6 ub1C6 ub2C6 (by decide) (by decide)

/-! ### C7: the loop-aware backward topological sort (`topoSortBwd`) -/

/-- The DFS state: the `BACKWARD_TOPO_SORT_VISITED` flags and the filled
prefix of the target array. -/
structure TopoState where
  visited : List Nat
  out : List Nat
deriving DecidableEq, Repr

/-- `backEdges[i]->outerLoops` (ids are resolved through the arena). -/
def depthOf (cfg : CFG) (e : Nat) : Nat :=
  match getBlock cfg e with
  | none => 0
  | some b => b.outerLoops

/-- The recursion of `topoSortBwd`, driven as a task queue: `Sum.inl b` is
a pending recursive call on `b`, `Sum.inr b` a pending `target[nextFree++] =
b` store.  Visiting an unvisited block pushes calls for the maximal leading
run of strictly-shallower `backEdges` (the scanned prefix), then the store
(the loop-header early emission when that prefix is non-empty), then calls
for the remaining `backEdges`; in the non-header case the store comes after
all predecessor calls. -/
def topoBwdRun (cfg : CFG) : Nat → List (Sum Nat Nat) → TopoState → Option TopoState
  | _, [], st => some st
  | 0, _ :: _, _ => none
  | fuel + 1, task :: rest, st =>
      match task with
      | Sum.inr bid => topoBwdRun cfg fuel rest ⟨st.visited, st.out ++ [bid]⟩
      | Sum.inl bid =>
          if bid ∈ st.visited then topoBwdRun cfg fuel rest st
          else match getBlock cfg bid with
            | none => none
            | some bb =>
                let pfx := bb.backEdges.takeWhile
                  (fun e => decide (depthOf cfg e < bb.outerLoops))
                let sfx := bb.backEdges.drop pfx.length
                let tasks := if pfx.length > 0 then
                    pfx.map Sum.inl ++ [Sum.inr bid] ++ sfx.map Sum.inl
                  else bb.backEdges.map Sum.inl ++ [Sum.inr bid]
                topoBwdRun cfg fuel (tasks ++ rest) ⟨bid :: st.visited, st.out⟩

/-- A whole `topoSortBwd(target, 0, start)` traversal from a clean state. -/
def topoSortBwdFrom (cfg : CFG) (fuel : Nat) (start : Nat) : Option (List Nat) :=
  (topoBwdRun cfg fuel [Sum.inl start] ⟨[], []⟩).map TopoState.out

/-- The ids of the pending stores of a task queue, in queue order. -/
def pend (tasks : List (Sum Nat Nat)) : List Nat :=
  tasks.filterMap (fun t => match t with | Sum.inl _ => none | Sum.inr b => some b)

/-- The DFS invariant relative to a set `g` of gray blocks owned by the
caller: a block is flagged iff it is emitted, pending, or gray; and no
block is in two of those places at once. -/
def TopoInv (g : List Nat) (tasks : List (Sum Nat Nat)) (st : TopoState) : Prop :=
  (∀ x, x ∈ st.visited ↔ x ∈ st.out ∨ x ∈ pend tasks ∨ x ∈ g) ∧
  (st.out ++ (pend tasks ++ g)).Nodup

theorem pend_nil : pend [] = [] := rfl

theorem pend_cons_inl (b : Nat) (rest : List (Sum Nat Nat)) :
    pend (Sum.inl b :: rest) = pend rest := rfl

theorem pend_cons_inr (b : Nat) (rest : List (Sum Nat Nat)) :
    pend (Sum.inr b :: rest) = b :: pend rest := rfl

theorem pend_append (t1 t2 : List (Sum Nat Nat)) :
    pend (t1 ++ t2) = pend t1 ++ pend t2 := List.filterMap_append _ _ _

theorem pend_map_inl (l : List Nat) : pend (l.map Sum.inl) = [] := by
  induction l with
  | nil => rfl
  | cons a rest ih => simpa [pend_cons_inl] using ih

theorem topoBwdRun_nil (cfg : CFG) (f : Nat) (st : TopoState) :
    topoBwdRun cfg f [] st = some st := by
  cases f <;> rfl

theorem topoBwdRun_mono {cfg : CFG} :
    ∀ {f : Nat} {tasks : List (Sum Nat Nat)} {st st' : TopoState},
      topoBwdRun cfg f tasks st = some st' →
      topoBwdRun cfg (f + 1) tasks st = some st' := by
  intro f
  induction f with
  | zero =>
      intro tasks st st' h
      cases tasks with
      | nil => exact h
      | cons t rest => exact absurd h Option.noConfusion
  | succ n ih =>
      intro tasks st st' h
      cases tasks with
      | nil => exact h
      | cons t rest =>
          cases t with
          | inr b =>
              simp only [topoBwdRun] at h ⊢
              exact ih h
          | inl b =>
              by_cases hv : b ∈ st.visited
              · simp only [topoBwdRun, if_pos hv] at h ⊢
                exact ih h
              · cases hg : getBlock cfg b with
                | none =>
                    simp only [topoBwdRun, if_neg hv, hg] at h
                    exact absurd h Option.noConfusion
                | some bb =>
                    simp only [topoBwdRun, if_neg hv, hg] at h ⊢
                    exact ih h

theorem topoBwdRun_monoLe {cfg : CFG} {f f' : Nat} {tasks : List (Sum Nat Nat)}
    {st st' : TopoState} (hle : f ≤ f')
    (h : topoBwdRun cfg f tasks st = some st') :
    topoBwdRun cfg f' tasks st = some st' := by
  obtain ⟨k, rfl⟩ := Nat.exists_eq_add_of_le hle
  clear hle
  induction k with
  | zero => exact h
  | succ n ih => exact topoBwdRun_mono ih

theorem topoBwdRun_det {cfg : CFG} {f1 f2 : Nat} {tasks : List (Sum Nat Nat)}
    {st s1 s2 : TopoState} (h1 : topoBwdRun cfg f1 tasks st = some s1)
    (h2 : topoBwdRun cfg f2 tasks st = some s2) : s1 = s2 := by
  rcases Nat.le_total f1 f2 with hle | hle
  · have := topoBwdRun_monoLe hle h1
    rw [this] at h2
    exact Option.some_injective _ h2
  · have := topoBwdRun_monoLe hle h2
    rw [this] at h1
    exact (Option.some_injective _ h1).symm

theorem topoBwdRun_out_extend {cfg : CFG} :
    ∀ {f : Nat} {tasks : List (Sum Nat Nat)} {st st' : TopoState},
      topoBwdRun cfg f tasks st = some st' →
      ∃ d, st'.out = st.out ++ d := by
  intro f
  induction f with
  | zero =>
      intro tasks st st' h
      cases tasks with
      | nil => cases h; exact ⟨[], (List.append_nil _).symm⟩
      | cons t rest => exact absurd h Option.noConfusion
  | succ n ih =>
      intro tasks st st' h
      cases tasks with
      | nil => cases h; exact ⟨[], (List.append_nil _).symm⟩
      | cons t rest =>
          cases t with
          | inr b =>
              simp only [topoBwdRun] at h
              obtain ⟨d, hd⟩ := ih h
              exact ⟨b :: d, by simpa [List.append_assoc] using hd⟩
          | inl b =>
              by_cases hv : b ∈ st.visited
              · simp only [topoBwdRun, if_pos hv] at h
                exact ih h
              · cases hg : getBlock cfg b with
                | none =>
                    simp only [topoBwdRun, if_neg hv, hg] at h
                    exact absurd h Option.noConfusion
                | some bb =>
                    simp only [topoBwdRun, if_neg hv, hg] at h
                    obtain ⟨d, hd⟩ := ih h
                    exact ⟨d, hd⟩

theorem topoBwdRun_append {cfg : CFG} :
    ∀ {f : Nat} {t1 t2 : List (Sum Nat Nat)} {st st' : TopoState},
      topoBwdRun cfg f (t1 ++ t2) st = some st' →
      ∃ st1, topoBwdRun cfg f t1 st = some st1 ∧
        topoBwdRun cfg f t2 st1 = some st' := by
  intro f
  induction f with
  | zero =>
      intro t1 t2 st st' h
      cases t1 with
      | nil => exact ⟨st, rfl, h⟩
      | cons t rest => exact absurd h Option.noConfusion
  | succ n ih =>
      intro t1 t2 st st' h
      cases t1 with
      | nil => exact ⟨st, rfl, h⟩
      | cons t rest =>
          rw [List.cons_append] at h
          cases t with
          | inr b =>
              simp only [topoBwdRun] at h
              obtain ⟨st1, ha, hb⟩ := ih h
              refine ⟨st1, ?_, topoBwdRun_mono hb⟩
              simp only [topoBwdRun]
              exact ha
          | inl b =>
              by_cases hv : b ∈ st.visited
              · simp only [topoBwdRun, if_pos hv] at h
                obtain ⟨st1, ha, hb⟩ := ih h
                refine ⟨st1, ?_, topoBwdRun_mono hb⟩
                simp only [topoBwdRun, if_pos hv]
                exact ha
              · cases hg : getBlock cfg b with
                | none =>
                    simp only [topoBwdRun, if_neg hv, hg] at h
                    exact absurd h Option.noConfusion
                | some bb =>
                    simp only [topoBwdRun, if_neg hv, hg] at h
                    rw [← List.append_assoc] at h
                    obtain ⟨st1, ha, hb⟩ := ih h
                    refine ⟨st1, ?_, topoBwdRun_mono hb⟩
                    simp only [topoBwdRun, if_neg hv, hg]
                    exact ha

theorem topoInv_step_emit {g : List Nat} {rest : List (Sum Nat Nat)} {st : TopoState}
    {c : Nat} (hinv : TopoInv g (Sum.inr c :: rest) st) :
    TopoInv g rest ⟨st.visited, st.out ++ [c]⟩ := by
  obtain ⟨hiff, hnd⟩ := hinv
  constructor
  · intro x
    have h0 := hiff x
    rw [pend_cons_inr] at h0
    simp only [List.mem_cons] at h0
    simp only [List.mem_append, List.mem_singleton]
    tauto
  · rw [pend_cons_inr, List.cons_append] at hnd
    simpa [List.append_assoc] using hnd

theorem topoInv_step_skip {g : List Nat} {rest : List (Sum Nat Nat)} {st : TopoState}
    {c : Nat} (hinv : TopoInv g (Sum.inl c :: rest) st) :
    TopoInv g rest st := by
  obtain ⟨hiff, hnd⟩ := hinv
  exact ⟨fun x => by rw [← pend_cons_inl c rest]; exact hiff x,
    by rw [← pend_cons_inl c rest]; exact hnd⟩

theorem topoInv_step_expand {g : List Nat} {rest T : List (Sum Nat Nat)}
    {st : TopoState} {c : Nat} (hT : pend T = [c])
    (hinv : TopoInv g (Sum.inl c :: rest) st) (hv : c ∉ st.visited) :
    TopoInv g (T ++ rest) ⟨c :: st.visited, st.out⟩ := by
  obtain ⟨hiff, hnd⟩ := hinv
  rw [pend_cons_inl] at hiff hnd
  have hfresh : ¬(c ∈ st.out ∨ c ∈ pend rest ∨ c ∈ g) := fun hc => hv ((hiff c).mpr hc)
  push_neg at hfresh
  constructor
  · intro x
    have h0 := hiff x
    rw [pend_append, hT]
    simp only [List.mem_cons] at h0 ⊢
    simp only [List.cons_append, List.mem_cons, List.nil_append]
    tauto
  · rw [pend_append, hT]
    show (st.out ++ (c :: pend rest ++ g)).Nodup
    rw [List.cons_append]
    refine List.nodup_middle.mpr (List.nodup_cons.mpr ⟨?_, hnd⟩)
    rw [List.mem_append]
    rintro (h1 | h2)
    · exact hfresh.1 h1
    · rw [List.mem_append] at h2
      rcases h2 with h2 | h2
      · exact hfresh.2.1 h2
      · exact hfresh.2.2 h2

/-- The expansion of an unvisited block queues exactly one store. -/
theorem pend_expansion (cfg : CFG) (bid : Nat) (bb : BasicBlock) :
    pend (if (bb.backEdges.takeWhile
          (fun e => decide (depthOf cfg e < bb.outerLoops))).length > 0 then
        (bb.backEdges.takeWhile
          (fun e => decide (depthOf cfg e < bb.outerLoops))).map Sum.inl ++
          [Sum.inr bid] ++
          (bb.backEdges.drop (bb.backEdges.takeWhile
            (fun e => decide (depthOf cfg e < bb.outerLoops))).length).map Sum.inl
      else bb.backEdges.map Sum.inl ++ [Sum.inr bid]) = [bid] := by
  split
  · rw [pend_append, pend_append, pend_map_inl, pend_map_inl, pend_cons_inr, pend_nil]
    rfl
  · rw [pend_append, pend_map_inl, pend_cons_inr, pend_nil]
    rfl

theorem topoBwdRun_pend_emit {cfg : CFG} :
    ∀ {f : Nat} {tasks : List (Sum Nat Nat)} {st st' : TopoState} {b : Nat},
      b ∈ pend tasks → topoBwdRun cfg f tasks st = some st' → b ∈ st'.out := by
  intro f
  induction f with
  | zero =>
      intro tasks st st' b hb h
      cases tasks with
      | nil => rw [pend_nil] at hb; exact absurd hb (List.not_mem_nil b)
      | cons t rest => exact absurd h Option.noConfusion
  | succ n ih =>
      intro tasks st st' b hb h
      cases tasks with
      | nil => rw [pend_nil] at hb; exact absurd hb (List.not_mem_nil b)
      | cons t rest =>
          cases t with
          | inr c =>
              simp only [topoBwdRun] at h
              rw [pend_cons_inr] at hb
              rcases List.mem_cons.mp hb with rfl | hb'
              · obtain ⟨d, hd⟩ := topoBwdRun_out_extend h
                rw [hd]
                simp
              · exact ih hb' h
          | inl c =>
              rw [pend_cons_inl] at hb
              by_cases hv : c ∈ st.visited
              · simp only [topoBwdRun, if_pos hv] at h
                exact ih hb h
              · cases hg : getBlock cfg c with
                | none =>
                    simp only [topoBwdRun, if_neg hv, hg] at h
                    exact absurd h Option.noConfusion
                | some bb =>
                    simp only [topoBwdRun, if_neg hv, hg] at h
                    refine ih ?_ h
                    rw [pend_append]
                    exact List.mem_append_right _ hb

theorem topoBwdRun_inv {cfg : CFG} :
    ∀ {f : Nat} {g : List Nat} {tasks : List (Sum Nat Nat)} {st st' : TopoState},
      TopoInv g tasks st → topoBwdRun cfg f tasks st = some st' →
      TopoInv g [] st' := by
  intro f
  induction f with
  | zero =>
      intro g tasks st st' hinv h
      cases tasks with
      | nil => cases h; exact hinv
      | cons t rest => exact absurd h Option.noConfusion
  | succ n ih =>
      intro g tasks st st' hinv h
      cases tasks with
      | nil => cases h; exact hinv
      | cons t rest =>
          cases t with
          | inr c =>
              simp only [topoBwdRun] at h
              exact ih (topoInv_step_emit hinv) h
          | inl c =>
              by_cases hv : c ∈ st.visited
              · simp only [topoBwdRun, if_pos hv] at h
                exact ih (topoInv_step_skip hinv) h
              · cases hg : getBlock cfg c with
                | none =>
                    simp only [topoBwdRun, if_neg hv, hg] at h
                    exact absurd h Option.noConfusion
                | some bb =>
                    simp only [topoBwdRun, if_neg hv, hg] at h
                    exact ih (topoInv_step_expand (pend_expansion cfg c bb) hinv hv) h

theorem topoBwdRun_vis_emit {cfg : CFG} :
    ∀ {f : Nat} {g : List Nat} {tasks : List (Sum Nat Nat)} {st st' : TopoState},
      TopoInv g tasks st → topoBwdRun cfg f tasks st = some st' →
      ∀ b : Nat, Sum.inl b ∈ tasks → b ∈ st'.out ∨ b ∈ g := by
  intro f
  induction f with
  | zero =>
      intro g tasks st st' hinv h b hb
      cases tasks with
      | nil => exact absurd hb (List.not_mem_nil _)
      | cons t rest => exact absurd h Option.noConfusion
  | succ n ih =>
      intro g tasks st st' hinv h b hb
      cases tasks with
      | nil => exact absurd hb (List.not_mem_nil _)
      | cons t rest =>
          cases t with
          | inr c =>
              simp only [topoBwdRun] at h
              rcases List.mem_cons.mp hb with heq | hb'
              · exact absurd heq (by simp)
              · exact ih (topoInv_step_emit hinv) h b hb'
          | inl c =>
              by_cases hv : c ∈ st.visited
              · simp only [topoBwdRun, if_pos hv] at h
                rcases List.mem_cons.mp hb with heq | hb'
                · obtain rfl : b = c := by injection heq
                  rcases (hinv.1 b).mp hv with hout | hrest
                  · obtain ⟨d, hd⟩ := topoBwdRun_out_extend h
                    exact Or.inl (hd ▸ List.mem_append_left _ hout)
                  · rw [pend_cons_inl] at hrest
                    rcases hrest with hpend | hgray
                    · exact Or.inl (topoBwdRun_pend_emit hpend h)
                    · exact Or.inr hgray
                · exact ih (topoInv_step_skip hinv) h b hb'
              · cases hg : getBlock cfg c with
                | none =>
                    simp only [topoBwdRun, if_neg hv, hg] at h
                    exact absurd h Option.noConfusion
                | some bb =>
                    simp only [topoBwdRun, if_neg hv, hg] at h
                    rcases List.mem_cons.mp hb with heq | hb'
                    · obtain rfl : b = c := by injection heq
                      refine Or.inl (topoBwdRun_pend_emit ?_ h)
                      rw [pend_append, pend_expansion cfg b bb]
                      exact List.mem_append_left _ (List.mem_singleton_self b)
                    · refine ih (topoInv_step_expand (pend_expansion cfg c bb) hinv hv) h b ?_
                      exact List.mem_append_right _ hb'

/-- The loop header of the C7 counterexample: depth-1 block `2` with a
depth-0 predecessor `0` (scanned prefix) and a depth-1 predecessor `1`. -/
def hBlockC7 : BasicBlock := mkBlock 2 [] none 3 3 [0, 1] 1

/-- The C7 counterexample graph: entry `0` (depth 0) branches to the header
`2` and to `1` (both depth 1); `1` exits to `2` and to the dead block `3`;
`2` exits to `3`.  The backward DFS from `3` reaches `1` through `3`'s
first back edge before ever visiting the header `2`. -/
def exC7 : CFG := ⟨[mkBlock 0 [] none 2 1 [] 0,
  mkBlock 1 [] none 2 3 [0] 1,
  hBlockC7,
  mkBlock 3 [] none 3 3 [1, 2] 0], 0, 3, [], [], [], []⟩

/-- **C7 (counterexample).** In the backward topological sort of `exC7`
from the dead block, block `2` is a `LOOP_HEADER` (its back edge `0` is
strictly shallower), block `1` is a same-depth predecessor of `2`, yet `1`
appears *before* `2` in the produced array — `1` was already visited and
emitted through the dead block's first back edge when the header was
reached, so the claimed "every same-or-deeper-scope predecessor appears
after h" fails. -/
theorem c7_same_depth_pred_before_header_counterexample :
    topoSortBwdFrom exC7 20 exC7.deadId = some [0, 1, 2, 3] ∧
    getBlock exC7 2 = some hBlockC7 ∧
    (0 ∈ hBlockC7.backEdges ∧ depthOf exC7 0 < hBlockC7.outerLoops) ∧
    (1 ∈ hBlockC7.backEdges ∧ ¬ depthOf exC7 1 < hBlockC7.outerLoops) ∧
    List.indexOf 1 [0, 1, 2, 3] < List.indexOf 2 [0, 1, 2, 3] := by decide

/-- **C7 (amended).** What the loop-header emission rule actually
guarantees, locally, when a DFS call visits an unvisited block `h` whose
scanned prefix `P` (the maximal leading run of strictly-shallower back
edges) is non-empty, starting from a clean state (every flagged block
already emitted): `h` is emitted; every block of `P` appears strictly
before `h`; and a remaining predecessor `q ∈ S` appears strictly after `h`
provided `q` is still unflagged in the intermediate state reached after the
prefix recursions and `h`'s own store (same-or-deeper predecessors already
visited earlier may precede `h`, as the counterexample shows). -/
theorem c7_loop_header_emission_order (cfg : CFG) (f : Nat) (h : Nat)
    (bb : BasicBlock) (st st' : TopoState) (P S : List Nat)
    (hbb : getBlock cfg h = some bb)
    (hPdef : P = bb.backEdges.takeWhile (fun e => decide (depthOf cfg e < bb.outerLoops)))
    (hSdef : S = bb.backEdges.drop P.length)
    (hI : ∀ x, x ∈ st.visited ↔ x ∈ st.out)
    (hnd : st.out.Nodup)
    (hh : h ∉ st.visited)
    (hP : P ≠ [])
    (hrun : topoBwdRun cfg (f + 1) [Sum.inl h] st = some st') :
    h ∈ st'.out ∧ st'.out.Nodup ∧
    (∀ p ∈ P, p ∈ st'.out ∧ st'.out.indexOf p < st'.out.indexOf h) ∧
    (∀ (f1 : Nat) (st1 : TopoState),
      topoBwdRun cfg f1 (P.map Sum.inl ++ [Sum.inr h])
        ⟨h :: st.visited, st.out⟩ = some st1 →
      ∀ q ∈ S, q ∉ st1.visited →
        q ∈ st'.out ∧ st'.out.indexOf h < st'.out.indexOf q) := by
  have hout : h ∉ st.out := fun hc => hh ((hI h).mpr hc)
  have hndTot : st'.out.Nodup := by
    have hInvTot : TopoInv [] [Sum.inl h] st := by
      constructor
      · intro x
        rw [pend_cons_inl, pend_nil]
        simp only [List.not_mem_nil, or_false, false_or]
        exact hI x
      · rw [pend_cons_inl, pend_nil]
        simpa using hnd
    have := topoBwdRun_inv hInvTot hrun
    obtain ⟨-, hnd'⟩ := this
    simpa [pend_nil] using hnd'
  simp only [topoBwdRun, if_neg hh, hbb] at hrun
  rw [← hPdef, ← hSdef, if_pos (List.length_pos.mpr hP), List.append_nil] at hrun
  obtain ⟨stH, hAB, hC⟩ := topoBwdRun_append hrun
  obtain ⟨stP, hA, hB⟩ := topoBwdRun_append hAB
  have hstH : stH = ⟨stP.visited, stP.out ++ [h]⟩ := by
    cases f with
    | zero => exact absurd hB Option.noConfusion
    | succ n =>
        simp only [topoBwdRun] at hB
        exact (Option.some_injective _ hB).symm
  have hInv0 : TopoInv [h] (P.map Sum.inl) ⟨h :: st.visited, st.out⟩ := by
    constructor
    · intro x
      rw [pend_map_inl]
      show x ∈ h :: st.visited ↔ _
      rw [List.mem_cons]
      simp only [List.not_mem_nil, false_or, List.mem_singleton]
      rw [hI x]
      tauto
    · rw [pend_map_inl, List.nil_append]
      rw [List.nodup_append]
      exact ⟨hnd, List.nodup_singleton h, by
        intro a ha hha
        rw [List.mem_singleton] at hha
        subst hha
        exact hout ha⟩
  have hInvP := topoBwdRun_inv hInv0 hA
  obtain ⟨hPiff, hPnd⟩ := hInvP
  rw [pend_nil, List.nil_append] at hPnd
  have hPiff' : ∀ x, x ∈ stP.visited ↔ x ∈ stP.out ∨ x = h := by
    intro x
    have := hPiff x
    rw [pend_nil] at this
    simpa using this
  have hhP : h ∉ stP.out := by
    rw [List.nodup_append] at hPnd
    intro hc
    exact hPnd.2.2 hc (List.mem_singleton_self h)
  obtain ⟨d, hd⟩ := topoBwdRun_out_extend hC
  rw [hstH] at hd
  have hout' : st'.out = stP.out ++ (h :: d) := by
    rw [hd]
    simp [List.append_assoc]
  have hidxh : st'.out.indexOf h = stP.out.length := by
    rw [hout', List.indexOf_append_of_not_mem hhP, List.indexOf_cons_self]
    omega
  refine ⟨by rw [hout']; simp, hndTot, ?_, ?_⟩
  · intro p hp
    have hpe := topoBwdRun_vis_emit hInv0 hA p (List.mem_map_of_mem Sum.inl hp)
    have hpne : p ≠ h := by
      intro he
      have hpred := List.mem_takeWhile_imp (hPdef ▸ hp)
      rw [decide_eq_true_eq] at hpred
      rw [he] at hpred
      have : depthOf cfg h = bb.outerLoops := by
        unfold depthOf
        rw [hbb]
      rw [this] at hpred
      exact lt_irrefl _ hpred
    have hpP : p ∈ stP.out := by
      rcases hpe with hpe | hpe
      · exact hpe
      · rw [List.mem_singleton] at hpe
        exact absurd hpe hpne
    refine ⟨by rw [hout']; exact List.mem_append_left _ hpP, ?_⟩
    rw [hout', List.indexOf_append_of_mem hpP]
    have : st'.out.indexOf h = stP.out.length := hidxh
    rw [hout'] at this
    rw [this]
    exact List.indexOf_lt_length.mpr hpP
  · intro f1 st1 hst1 q hqS hqv
    obtain ⟨stP', hA', hB'⟩ := topoBwdRun_append hst1
    have hPP : stP' = stP := topoBwdRun_det hA' hA
    rw [hPP] at hB'
    have hst1e : st1 = ⟨stP.visited, stP.out ++ [h]⟩ := by
      cases f1 with
      | zero => exact absurd hB' Option.noConfusion
      | succ n =>
          simp only [topoBwdRun] at hB'
          exact (Option.some_injective _ hB').symm
    rw [hst1e] at hqv
    have hqv' : q ∉ stP.visited := hqv
    have hqout : q ∉ stP.out := fun hc => hqv' ((hPiff' q).mpr (Or.inl hc))
    have hqh : q ≠ h := fun he => hqv' ((hPiff' q).mpr (Or.inr he))
    have hInvS : TopoInv [] (S.map Sum.inl) stH := by
      rw [hstH]
      constructor
      · intro x
        rw [pend_map_inl]
        show x ∈ stP.visited ↔ x ∈ stP.out ++ [h] ∨ _ ∨ _
        simp only [List.not_mem_nil, or_false, List.mem_append, List.mem_singleton]
        exact hPiff' x
      · rw [pend_map_inl, List.nil_append]
        simpa using hPnd
    have hqe := topoBwdRun_vis_emit hInvS hC q (List.mem_map_of_mem Sum.inl hqS)
    have hqe' : q ∈ st'.out := by
      rcases hqe with hqe | hqe
      · exact hqe
      · exact absurd hqe (List.not_mem_nil q)
    refine ⟨hqe', ?_⟩
    have hqne2 : q ∉ stP.out ++ [h] := by
      rw [List.mem_append, List.mem_singleton]
      rintro (hc | hc)
      · exact hqout hc
      · exact hqh hc
    rw [hidxh, hd, List.indexOf_append_of_not_mem hqne2, List.length_append]
    simp only [List.length_singleton]
    omega

/-- A clean DFS state for the C7 witness: `0` and `1` already emitted. -/
def stC7 : TopoState := ⟨[0, 1], [0, 1]⟩

/-- The state the C7 witness run produces. -/
def stC7' : TopoState := ⟨[2, 0, 1], [0, 1, 2]⟩

/-- C7 (amended) at the concrete graph `exC7`: visiting the header `2` from
a state where `0` and `1` are already emitted. -/
theorem c7_loop_header_emission_order_witness :
    2 ∈ stC7'.out ∧ stC7'.out.Nodup ∧
    (∀ p ∈ ([0] : List Nat), p ∈ stC7'.out ∧
      stC7'.out.indexOf p < stC7'.out.indexOf 2) ∧
    (∀ (f1 : Nat) (st1 : TopoState),
      topoBwdRun exC7 f1 (([0] : List Nat).map Sum.inl ++ [Sum.inr 2])
        ⟨2 :: stC7.visited, stC7.out⟩ = some st1 →
      ∀ q ∈ ([1] : List Nat), q ∉ st1.visited →
        q ∈ stC7'.out ∧ stC7'.out.indexOf 2 < stC7'.out.indexOf q) :=
  c7_loop_header_emission_order exC7 5 2 hBlockC7 stC7 stC7' [0] [1]
    (by decide) (by decide) (by decide) (fun x => Iff.rfl) (by decide) (by decide)
    (by decide) (by decide)
